import Mathlib

/-!
Verification of the mesh-based Monte Carlo transport core (`mmc_mesh.c`).

This file shallowly embeds the mesh data model and the operations of
`mmc_mesh.c` in Lean.  Floating-point values of the C source are modelled
as exact rationals (for the geometric and bookkeeping code) or as real
numbers (for the trigonometric sampling and quadrature code); machine
arrays are modelled as lists or as total functions from indices.
Each numbered theorem settles one claim about the code.
-/

namespace MMC

/-- A 3d coordinate (the C `FLOAT3`), with exact rational components. -/
structure Vec3 where
  x : ℚ
  y : ℚ
  z : ℚ
deriving DecidableEq

/-- Tetrahedron faces table, counter-clock-wise local node indices
(`out[4][3]` in `mmc_mesh.c`). -/
def outTable : Fin 4 → Fin 3 → ℕ
  | 0, 0 => 0 | 0, 1 => 3 | 0, 2 => 1
  | 1, 0 => 3 | 1, 1 => 2 | 1, 2 => 1
  | 2, 0 => 0 | 2, 1 => 2 | 2, 2 => 3
  | 3, 0 => 0 | 3, 1 => 1 | 3, 2 => 2

/-- Local index of the node opposite the i-th face (`facemap[]`). -/
def facemap : Fin 4 → Fin 4
  | 0 => 2 | 1 => 0 | 2 => 1 | 3 => 3

/-- Inverse of `facemap` (`ifacemap[]` in the source). -/
def ifacemap : Fin 4 → Fin 4
  | 0 => 1 | 1 => 2 | 2 => 0 | 3 => 3

/-- Index mapping from the i-th face in `outTable` order to the
face-neighbour order (`ifaceorder[]`). -/
def ifaceorder : Fin 4 → Fin 4
  | 0 => 3 | 1 => 0 | 2 => 2 | 3 => 1

/-! ## `mesh_getvolume` (claim C1)

The C function loops over all elements; for each element it computes the
signed triple-product volume from the four 1-based node indices, swaps the
3rd/4th node and negates when the sign is negative, scales by 1/6, and
(for elements whose region id is nonzero) adds a quarter share to every
node of the element.  Elements are modelled as pairs of the node-index
list (`mesh->elem` row) and the region id (`mesh->type` entry). -/

/-- Signed volume accumulator of `mesh_getvolume` (lines 909-919),
including the final negation `evol[i] = -evol[i]`.  Node indices are
1-based as in the source; `node` is the 0-based coordinate array. -/
def elemVolSigned (node : ℕ → Vec3) (ee : List ℕ) : ℚ :=
  let n0 := node (ee.getD 0 1 - 1)
  let n1 := node (ee.getD 1 1 - 1)
  let n2 := node (ee.getD 2 1 - 1)
  let n3 := node (ee.getD 3 1 - 1)
  let dx := n2.x - n3.x
  let dy := n2.y - n3.y
  let dz := n2.z - n3.z
  let e1 := n1.x * (n2.y * n3.z - n2.z * n3.y)
          - n1.y * (n2.x * n3.z - n2.z * n3.x)
          + n1.z * (n2.x * n3.y - n2.y * n3.x)
  let e2 := e1 - n0.x * ((n2.y * n3.z - n2.z * n3.y) + n1.y * dz - n1.z * dy)
  let e3 := e2 + n0.y * ((n2.x * n3.z - n2.z * n3.x) + n1.x * dz - n1.z * dx)
  let e4 := e3 - n0.z * ((n2.x * n3.y - n2.y * n3.x) + n1.x * dy - n1.y * dx)
  let e5 := -e4
  e5

/-- Swap of the 3rd and 4th node indices (lines 922-924). -/
def swap23 (ee : List ℕ) : List ℕ :=
  (ee.set 2 (ee.getD 3 1)).set 3 (ee.getD 2 1)

/-- The element connectivity stored after `mesh_getvolume`: nodes 2 and 3
are swapped exactly when the signed volume is negative. -/
def fixElem (node : ℕ → Vec3) (ee : List ℕ) : List ℕ :=
  if elemVolSigned node ee < 0 then swap23 ee else ee

/-- The stored element volume `evol[i]`: the signed volume, negated when
negative, scaled by 1/6 (lines 921-928). -/
def elemEvol (node : ℕ → Vec3) (ee : List ℕ) : ℚ :=
  (if elemVolSigned node ee < 0 then -(elemVolSigned node ee)
   else elemVolSigned node ee) * (1/6)

/-- The `evol` array produced by `mesh_getvolume`. -/
def mesh_evol (node : ℕ → Vec3) (elems : List (List ℕ × ℤ)) : List ℚ :=
  elems.map (fun p => elemEvol node p.1)

/-- One execution of `nvol[ee[j] - 1] += v` for a 1-based node index
`idx1`: the nodal-volume array is a total function on 0-based node ids. -/
def addShare (v : ℚ) (nv : ℕ → ℚ) (idx1 : ℕ) : ℕ → ℚ :=
  fun n => if n + 1 = idx1 then nv n + v else nv n

/-- Processing of one element by the nodal-volume loop of
`mesh_getvolume` (lines 930-936): regions with id 0 are skipped, every
node of the (possibly swapped) element receives a quarter share. -/
def elemNvolStep (node : ℕ → Vec3) (nv : ℕ → ℚ) (p : List ℕ × ℤ) : ℕ → ℚ :=
  if p.2 = 0 then nv
  else (fixElem node p.1).foldl (addShare (elemEvol node p.1 * (1/4))) nv

/-- The `nvol` array produced by `mesh_getvolume` (starting from the
`calloc` zero array). -/
def mesh_nvol (node : ℕ → Vec3) (elems : List (List ℕ × ℤ)) : ℕ → ℚ :=
  elems.foldl (elemNvolStep node) (fun _ => 0)

theorem foldl_addShare (v : ℚ) (ee : List ℕ) (nv : ℕ → ℚ) (n : ℕ) :
    (ee.foldl (addShare v) nv) n = nv n + (ee.count (n + 1) : ℚ) * v := by
  induction ee generalizing nv with
  | nil => simp
  | cons a tl ih =>
    rw [List.foldl_cons, ih]
    by_cases h : n + 1 = a
    · subst h
      simp only [addShare, if_pos rfl, List.count_cons_self]
      push_cast
      ring
    · have ha : ¬ (a = n + 1) := fun hc => h hc.symm
      simp [addShare, h, List.count_cons, ha]

theorem count_swap23 (ee : List ℕ) (hlen : ee.length = 4) (m : ℕ) :
    (swap23 ee).count m = ee.count m := by
  match ee, hlen with
  | [a, b, c, d], _ =>
    simp only [swap23, List.getD, List.set]
    simp [List.count_cons]
    omega

theorem mesh_nvol_count (node : ℕ → Vec3) (elems : List (List ℕ × ℤ)) (n : ℕ) :
    mesh_nvol node elems n =
      ((elems.filter (fun p => p.2 ≠ 0)).map
        (fun p => ((fixElem node p.1).count (n + 1) : ℚ) *
          (elemEvol node p.1 * (1/4)))).sum := by
  have key : ∀ (l : List (List ℕ × ℤ)) (nv : ℕ → ℚ),
      (l.foldl (elemNvolStep node) nv) n =
        nv n + ((l.filter (fun p => p.2 ≠ 0)).map
          (fun p => ((fixElem node p.1).count (n + 1) : ℚ) *
            (elemEvol node p.1 * (1/4)))).sum := by
    intro l
    induction l with
    | nil => simp
    | cons p tl ih =>
      intro nv
      rw [List.foldl_cons, ih]
      by_cases h : p.2 = 0
      · rw [List.filter_cons_of_neg (by simpa using h)]
        simp [elemNvolStep, h]
      · rw [List.filter_cons_of_pos (by simpa using h)]
        simp only [List.map_cons, List.sum_cons]
        unfold elemNvolStep
        rw [if_neg h, foldl_addShare]
        ring
  simpa using key elems (fun _ => 0)

theorem sum_filter_indicator {α : Type} (f : α → ℚ) (c d : α → Prop)
    [DecidablePred c] [DecidablePred d] (l : List α) :
    ((l.filter (fun p => decide (d p))).map
      (fun p => (if c p then (1 : ℚ) else 0) * f p)).sum =
      ((l.filter (fun p => decide (d p ∧ c p))).map f).sum := by
  induction l with
  | nil => simp
  | cons p tl ih =>
    by_cases hd : d p
    · by_cases hc : c p
      · rw [List.filter_cons_of_pos (by simpa using hd),
          List.filter_cons_of_pos (by simp [hd, hc])]
        simp only [List.map_cons, List.sum_cons, if_pos hc, one_mul, ih]
      · rw [List.filter_cons_of_pos (by simpa using hd),
          List.filter_cons_of_neg (by simp [hc])]
        simp only [List.map_cons, List.sum_cons, if_neg hc, zero_mul,
          zero_add, ih]
    · rw [List.filter_cons_of_neg (by simpa using hd),
        List.filter_cons_of_neg (by simp [hd])]
      exact ih

/-- C1: after `mesh_getvolume` runs, every stored element volume
`evol[i]` is non-negative (a negative signed triple-product volume is
fixed by swapping the 3rd/4th nodes and negating before the 1/6 scaling,
as embedded in `elemEvol`/`fixElem`), and every node's volume `nvol`
equals the sum, over its incident tetrahedra whose region id is nonzero,
of one quarter of that tetrahedron's element volume. -/
theorem C1_mesh_getvolume (node : ℕ → Vec3) (elems : List (List ℕ × ℤ))
    (hnd : ∀ p ∈ elems, p.1.Nodup) (hlen : ∀ p ∈ elems, p.1.length = 4) :
    (∀ v ∈ mesh_evol node elems, 0 ≤ v) ∧
    (∀ n : ℕ, mesh_nvol node elems n =
      ((elems.filter (fun p => p.2 ≠ 0 ∧ (n + 1) ∈ p.1)).map
        (fun p => elemEvol node p.1 * (1/4))).sum) := by
  constructor
  · intro v hv
    simp only [mesh_evol, List.mem_map] at hv
    obtain ⟨p, _, rfl⟩ := hv
    unfold elemEvol
    by_cases h : elemVolSigned node p.1 < 0
    · rw [if_pos h]
      have : (0:ℚ) ≤ -(elemVolSigned node p.1) := by linarith
      positivity
    · rw [if_neg h]
      push_neg at h
      positivity
  · intro n
    rw [mesh_nvol_count]
    have hcnt : ∀ p ∈ elems,
        ((fixElem node p.1).count (n + 1) : ℚ) =
          if (n + 1) ∈ p.1 then (1 : ℚ) else 0 := by
      intro p hp
      have hc : (fixElem node p.1).count (n + 1) = p.1.count (n + 1) := by
        unfold fixElem
        by_cases h : elemVolSigned node p.1 < 0
        · rw [if_pos h]; exact count_swap23 p.1 (hlen p hp) (n + 1)
        · rw [if_neg h]
      rw [hc]
      by_cases hm : (n + 1) ∈ p.1
      · rw [if_pos hm, List.count_eq_one_of_mem (hnd p hp) hm]; norm_num
      · rw [if_neg hm, List.count_eq_zero_of_not_mem hm]; norm_num
    calc ((elems.filter (fun p => p.2 ≠ 0)).map
        (fun p => ((fixElem node p.1).count (n + 1) : ℚ) *
          (elemEvol node p.1 * (1/4)))).sum
        = ((elems.filter (fun p => p.2 ≠ 0)).map
            (fun p => (if (n + 1) ∈ p.1 then (1:ℚ) else 0) *
              (elemEvol node p.1 * (1/4)))).sum := by
          apply congrArg
          apply List.map_congr_left
          intro p hp
          rw [hcnt p (List.mem_of_mem_filter hp)]
      _ = _ := by
          exact sum_filter_indicator (fun p => elemEvol node p.1 * (1/4))
            (fun p => (n + 1) ∈ p.1) (fun p => p.2 ≠ 0) elems

/-- Concrete nodes of a unit tetrahedron, for witnesses. -/
def nodeW : ℕ → Vec3 :=
  fun k => if k = 0 then ⟨0, 0, 0⟩ else if k = 1 then ⟨1, 0, 0⟩
    else if k = 2 then ⟨0, 1, 0⟩ else ⟨0, 0, 1⟩

/-- Concrete one-element mesh, for witnesses. -/
def elemsW : List (List ℕ × ℤ) := [([1, 2, 3, 4], 1)]

theorem C1_mesh_getvolume_witness :
    (∀ v ∈ mesh_evol nodeW elemsW, 0 ≤ v) ∧
    (∀ n : ℕ, mesh_nvol nodeW elemsW n =
      ((elemsW.filter (fun p => p.2 ≠ 0 ∧ (n + 1) ∈ p.1)).map
        (fun p => elemEvol nodeW p.1 * (1/4))).sum) :=
  C1_mesh_getvolume nodeW elemsW (by decide) (by decide)

/-! ## Boundary-face sequencing in `tracer_prep` (claim C4)

Lines 1216-1224 of `mmc_mesh.c` scan the flattened face-adjacency array
and replace every 0 entry by the next negative id `-(++nf)`.  The array
is modelled as a list of integers and the running counter `mesh->nf` is
threaded explicitly. -/

/-- The boundary-sequencing pass: entries equal to 0 are replaced by
`-(nf+1)` with the counter incremented, all other entries are kept. -/
def tracer_seqboundary : List ℤ → ℕ → List ℤ × ℕ
  | [], nf => ([], nf)
  | x :: xs, nf =>
    if x = 0 then
      let r := tracer_seqboundary xs (nf + 1)
      (-((nf : ℤ) + 1) :: r.1, r.2)
    else
      let r := tracer_seqboundary xs nf
      (x :: r.1, r.2)

theorem tracer_seqboundary_spec (l : List ℤ) (c : ℕ) (h : ∀ x ∈ l, 0 ≤ x) :
    (tracer_seqboundary l c).2 = c + l.count 0 ∧
    (tracer_seqboundary l c).1.filter (fun x => x < 0) =
      (List.range (l.count 0)).map (fun k : ℕ => -((c : ℤ) + (k : ℤ) + 1)) := by
  induction l generalizing c with
  | nil => simp [tracer_seqboundary]
  | cons x xs ih =>
    by_cases hx : x = 0
    · subst hx
      obtain ⟨ih1, ih2⟩ := ih (c + 1) (fun y hy => h y (List.mem_cons_of_mem _ hy))
      have hrec : tracer_seqboundary ((0 : ℤ) :: xs) c =
          ((-((c : ℤ) + 1)) :: (tracer_seqboundary xs (c + 1)).1,
            (tracer_seqboundary xs (c + 1)).2) := by
        simp [tracer_seqboundary]
      rw [hrec]
      refine ⟨?_, ?_⟩
      · rw [ih1, List.count_cons_self]
        omega
      · rw [List.count_cons_self]
        rw [List.filter_cons_of_pos (by simp; omega)]
        rw [ih2, List.range_succ_eq_map]
        rw [List.map_cons, List.map_map]
        refine congrArg₂ _ (by push_cast; ring) ?_
        apply List.map_congr_left
        intro k _
        simp only [Function.comp]
        push_cast
        ring
    · have hx0 : 0 ≤ x := h x (List.mem_cons_self x xs)
      obtain ⟨ih1, ih2⟩ := ih c (fun y hy => h y (List.mem_cons_of_mem _ hy))
      have hrec : tracer_seqboundary (x :: xs) c =
          (x :: (tracer_seqboundary xs c).1, (tracer_seqboundary xs c).2) := by
        simp [tracer_seqboundary, hx]
      have hne : (0 : ℤ) ≠ x := fun hc => hx hc.symm
      rw [hrec]
      refine ⟨?_, ?_⟩
      · rw [ih1, List.count_cons_of_ne hne]
      · rw [List.count_cons_of_ne hne,
          List.filter_cons_of_neg (by simpa using not_lt.mpr hx0)]
        exact ih2

/-- C4: after the boundary-sequencing pass, the negative ids stored in
the face-adjacency array are exactly `-1, …, -K` in scan order — no gaps
and no duplicates — where `K` is the final `mesh->nf`, which equals the
number of exposed boundary faces (the zero entries of the input array).
Hypothesis: the loaded adjacency array marks boundaries with 0 and has no
negative entries, as produced by the mesh loaders. -/
theorem C4_tracer_prep_boundary_ids (facenb : List ℤ)
    (h : ∀ x ∈ facenb, 0 ≤ x) :
    (tracer_seqboundary facenb 0).2 = facenb.count 0 ∧
    (tracer_seqboundary facenb 0).1.filter (fun x => x < 0) =
      (List.range ((tracer_seqboundary facenb 0).2)).map
        (fun k : ℕ => -((k : ℤ) + 1)) := by
  obtain ⟨h1, h2⟩ := tracer_seqboundary_spec facenb 0 h
  refine ⟨by simpa using h1, ?_⟩
  rw [h2, h1]
  simp

theorem C4_tracer_prep_boundary_ids_witness :
    (tracer_seqboundary [0, 2, 0, 0] 0).2 = ([0, 2, 0, 0] : List ℤ).count 0 ∧
    (tracer_seqboundary [0, 2, 0, 0] 0).1.filter (fun x => x < 0) =
      (List.range ((tracer_seqboundary [0, 2, 0, 0] 0).2)).map
        (fun k : ℕ => -((k : ℤ) + 1)) :=
  C4_tracer_prep_boundary_ids [0, 2, 0, 0] (by decide)

/-! ## Barycentric containment and source-element location (claims C2, C9)

`mesh_barycentric` (lines 993-1029) computes, for each of the four faces,
the negated dot product of the point offset with the face normal and
stores it at position `facemap[i]`; any negative entry means "outside"
(return 1, modelled as `Except.ok none`); otherwise the entries are
normalized by their sum (return 0, modelled as `Except.ok (some w)`).
An initial element index at or beyond the element count raises a fatal
error (`MESH_ERROR`, modelled as `Except.error`). -/

/-- Modelled from the spec: `vec_diff3(a,b,out)` stores the edge vector
`b - a`; the vector-math helpers are declared in a header that is not
under `src/`. -/
def vec_diff3 (a b : Vec3) : Vec3 :=
  ⟨b.x - a.x, b.y - a.y, b.z - a.z⟩

/-- Modelled from the spec: `vec_cross3(a,b,out)` stores the cross
product `a × b` (header not under `src/`). -/
def vec_cross3 (a b : Vec3) : Vec3 :=
  ⟨a.y * b.z - a.z * b.y, a.z * b.x - a.x * b.z, a.x * b.y - a.y * b.x⟩

/-- Modelled from the spec: `vec_dot3(a,b)` is the dot product (header
not under `src/`). -/
def vec_dot3 (a b : Vec3) : ℚ :=
  a.x * b.x + a.y * b.y + a.z * b.z

/-- Modelled from the spec: the `VERY_BIG` constant of the constants
header (not under `src/`), used to seed min/max scans. -/
def VERY_BIG : ℚ := 1000000000000000000000000000000

/-- The unnormalized barycentric value computed for face `i` of element
`eid` (0-based): `-dot(srcpos - A, (B-A) × (C-A))` with `A,B,C` the face
nodes from the `out[]` table (lines 1005-1014). -/
def baryRaw (node : ℕ → Vec3) (elems : List (List ℕ)) (eid : ℕ)
    (srcpos : Vec3) (i : Fin 4) : ℚ :=
  let ee := elems.getD eid []
  let ea := ee.getD (outTable i 0) 1 - 1
  let eb := ee.getD (outTable i 1) 1 - 1
  let ec := ee.getD (outTable i 2) 1 - 1
  let vecAB := vec_diff3 (node ea) (node eb)
  let vecAC := vec_diff3 (node ea) (node ec)
  let vecS := vec_diff3 (node ea) srcpos
  let vecN := vec_cross3 vecAB vecAC
  let r := -vec_dot3 vecS vecN
  r

/-- The stored barycentric array entry `bary[j]`: the raw value of the
face whose `facemap` image is `j`, i.e. face `ifacemap j`. -/
def baryStored (node : ℕ → Vec3) (elems : List (List ℕ)) (eid : ℕ)
    (srcpos : Vec3) (j : Fin 4) : ℚ :=
  baryRaw node elems eid srcpos (ifacemap j)

/-- The sum `s` of the four stored barycentric values (6× the signed
element volume; zero only for a degenerate element). -/
def barySum (node : ℕ → Vec3) (elems : List (List ℕ)) (eid : ℕ)
    (srcpos : Vec3) : ℚ :=
  baryStored node elems eid srcpos 0 + baryStored node elems eid srcpos 1 +
    baryStored node elems eid srcpos 2 + baryStored node elems eid srcpos 3

/-- `mesh_barycentric` (lines 993-1029): fatal error when the element
index is out of range, `ok none` when some weight is negative (C returns
1), `ok (some w)` with the normalized weights otherwise (C returns 0). -/
def mesh_barycentric (e0 : ℤ) (node : ℕ → Vec3) (elems : List (List ℕ))
    (srcpos : Vec3) : Except String (Option (Fin 4 → ℚ)) :=
  if (elems.length : ℤ) ≤ e0 - 1 then
    Except.error "initial element index exceeds total element count"
  else
    let eid := (e0 - 1).toNat
    if baryStored node elems eid srcpos 0 < 0 ∨
        baryStored node elems eid srcpos 1 < 0 ∨
        baryStored node elems eid srcpos 2 < 0 ∨
        baryStored node elems eid srcpos 3 < 0 then
      Except.ok none
    else
      Except.ok (some (fun j =>
        baryStored node elems eid srcpos j / barySum node elems eid srcpos))

/-- Minimum of one coordinate over the element's nodes, seeded with
`VERY_BIG` (lines 954-965). -/
def bboxMin (node : ℕ → Vec3) (ee : List ℕ) (f : Vec3 → ℚ) : ℚ :=
  ee.foldl (fun m idx => min (f (node (idx - 1))) m) VERY_BIG

/-- Maximum of one coordinate over the element's nodes, seeded with
`-VERY_BIG` (lines 954-965). -/
def bboxMax (node : ℕ → Vec3) (ee : List ℕ) (f : Vec3 → ℚ) : ℚ :=
  ee.foldl (fun m idx => max (f (node (idx - 1))) m) (-VERY_BIG)

/-- The bounding-box rejection test of `mesh_initelem` (lines 967-969). -/
def inBBox (node : ℕ → Vec3) (ee : List ℕ) (p : Vec3) : Prop :=
  p.x ≤ bboxMax node ee Vec3.x ∧ bboxMin node ee Vec3.x ≤ p.x ∧
  p.y ≤ bboxMax node ee Vec3.y ∧ bboxMin node ee Vec3.y ≤ p.y ∧
  p.z ≤ bboxMax node ee Vec3.z ∧ bboxMin node ee Vec3.z ≤ p.z

instance (node : ℕ → Vec3) (ee : List ℕ) (p : Vec3) :
    Decidable (inBBox node ee p) := by
  unfold inBBox
  infer_instance

/-- The element scan of `mesh_initelem` over a list of 0-based element
indices: bounding-box test first, then the barycentric test; the first
element passing both is returned with its weights. -/
def initelemFrom (node : ℕ → Vec3) (elems : List (List ℕ)) (srcpos : Vec3) :
    List ℕ → Option (ℤ × (Fin 4 → ℚ))
  | [] => none
  | i :: rest =>
    if inBBox node (elems.getD i []) srcpos then
      match mesh_barycentric ((i : ℤ) + 1) node elems srcpos with
      | Except.ok (some w) => some (((i : ℤ) + 1), w)
      | _ => initelemFrom node elems srcpos rest
    else initelemFrom node elems srcpos rest

/-- `mesh_initelem` (lines 949-979): scan all elements in order; `some
(e0, w)` models the C function returning 0 after setting `cfg->e0` and
`cfg->bary0`, `none` models returning 1 with `cfg->e0` untouched. -/
def mesh_initelem (node : ℕ → Vec3) (elems : List (List ℕ))
    (srcpos : Vec3) : Option (ℤ × (Fin 4 → ℚ)) :=
  initelemFrom node elems srcpos (List.range elems.length)

theorem mesh_barycentric_ok_some (e0 : ℤ) (node : ℕ → Vec3)
    (elems : List (List ℕ)) (srcpos : Vec3) (w : Fin 4 → ℚ)
    (h : mesh_barycentric e0 node elems srcpos = Except.ok (some w)) :
    (∀ j, 0 ≤ w j) ∧
      (barySum node elems (e0 - 1).toNat srcpos ≠ 0 →
        w 0 + w 1 + w 2 + w 3 = 1) := by
  unfold mesh_barycentric at h
  by_cases hrange : (elems.length : ℤ) ≤ e0 - 1
  · rw [if_pos hrange] at h
    exact absurd h (by simp)
  · rw [if_neg hrange] at h
    set eid := (e0 - 1).toNat with heid
    by_cases hneg : baryStored node elems eid srcpos 0 < 0 ∨
        baryStored node elems eid srcpos 1 < 0 ∨
        baryStored node elems eid srcpos 2 < 0 ∨
        baryStored node elems eid srcpos 3 < 0
    · rw [if_pos hneg] at h
      exact absurd h (by simp)
    · rw [if_neg hneg] at h
      push_neg at hneg
      obtain ⟨h0, h1, h2, h3⟩ := hneg
      have hw : w = fun j =>
          baryStored node elems eid srcpos j / barySum node elems eid srcpos := by
        have := h
        simp only [Except.ok.injEq, Option.some.injEq] at this
        exact this.symm
      subst hw
      have hs : 0 ≤ barySum node elems eid srcpos := by
        unfold barySum
        linarith
      refine ⟨fun j => div_nonneg ?_ hs, fun hne => ?_⟩
      · fin_cases j <;> assumption
      · rw [div_add_div_same, div_add_div_same, div_add_div_same]
        rw [show baryStored node elems eid srcpos 0 +
            baryStored node elems eid srcpos 1 +
            baryStored node elems eid srcpos 2 +
            baryStored node elems eid srcpos 3 =
            barySum node elems eid srcpos from rfl]
        exact div_self hne

theorem initelemFrom_some (node : ℕ → Vec3) (elems : List (List ℕ))
    (srcpos : Vec3) (l : List ℕ) (e : ℤ) (w : Fin 4 → ℚ)
    (h : initelemFrom node elems srcpos l = some (e, w)) :
    ∃ i ∈ l, e = (i : ℤ) + 1 ∧ inBBox node (elems.getD i []) srcpos ∧
      mesh_barycentric ((i : ℤ) + 1) node elems srcpos =
        Except.ok (some w) := by
  induction l with
  | nil => exact absurd h (by simp [initelemFrom])
  | cons i rest ih =>
    unfold initelemFrom at h
    by_cases hb : inBBox node (elems.getD i []) srcpos
    · rw [if_pos hb] at h
      rcases hm : mesh_barycentric ((i : ℤ) + 1) node elems srcpos with msg | ow
      · rw [hm] at h
        obtain ⟨j, hj, hrest⟩ := ih h
        exact ⟨j, List.mem_cons_of_mem _ hj, hrest⟩
      · rcases ow with _ | w2
        · rw [hm] at h
          obtain ⟨j, hj, hrest⟩ := ih h
          exact ⟨j, List.mem_cons_of_mem _ hj, hrest⟩
        · rw [hm] at h
          simp only [Option.some.injEq, Prod.mk.injEq] at h
          obtain ⟨he, hw⟩ := h
          exact ⟨i, List.mem_cons_self i rest, he.symm, hb, hw ▸ hm⟩
    · rw [if_neg hb] at h
      obtain ⟨j, hj, hrest⟩ := ih h
      exact ⟨j, List.mem_cons_of_mem _ hj, hrest⟩

theorem initelemFrom_none (node : ℕ → Vec3) (elems : List (List ℕ))
    (srcpos : Vec3) (l : List ℕ)
    (h : initelemFrom node elems srcpos l = none) :
    ∀ i ∈ l, inBBox node (elems.getD i []) srcpos →
      ∀ w, mesh_barycentric ((i : ℤ) + 1) node elems srcpos ≠
        Except.ok (some w) := by
  induction l with
  | nil => intro i hi; exact absurd hi (by simp)
  | cons i rest ih =>
    unfold initelemFrom at h
    intro j hj hb w
    rcases List.mem_cons.mp hj with rfl | hjr
    · rw [if_pos hb] at h
      intro hm
      rw [hm] at h
      exact absurd h (by simp)
    · by_cases hbi : inBBox node (elems.getD i []) srcpos
      · rw [if_pos hbi] at h
        rcases hm : mesh_barycentric ((i : ℤ) + 1) node elems srcpos with msg | ow
        · rw [hm] at h
          exact ih h j hjr hb w
        · rcases ow with _ | w2
          · rw [hm] at h
            exact ih h j hjr hb w
          · rw [hm] at h
            exact absurd h (by simp)
      · rw [if_neg hbi] at h
        exact ih h j hjr hb w

/-- C2: when the element scan of `mesh_initelem` succeeds, the element it
returns passed the bounding-box and barycentric tests, all four returned
barycentric weights are non-negative, and — whenever the located element
is non-degenerate (nonzero weight sum, always true for a genuine
tetrahedron) — the returned weights sum to 1; when no tetrahedron passes
both tests, the scan reports not-found (`none`, C returns 1 leaving
`cfg->e0` unset). -/
theorem C2_mesh_initelem (node : ℕ → Vec3) (elems : List (List ℕ))
    (srcpos : Vec3) :
    (∀ e w, mesh_initelem node elems srcpos = some (e, w) →
      (∀ j, 0 ≤ w j) ∧
      (barySum node elems (e - 1).toNat srcpos ≠ 0 →
        w 0 + w 1 + w 2 + w 3 = 1) ∧
      ∃ i < elems.length, e = (i : ℤ) + 1 ∧
        inBBox node (elems.getD i []) srcpos ∧
        mesh_barycentric ((i : ℤ) + 1) node elems srcpos =
          Except.ok (some w)) ∧
    (mesh_initelem node elems srcpos = none →
      ∀ i < elems.length, inBBox node (elems.getD i []) srcpos →
        ∀ w, mesh_barycentric ((i : ℤ) + 1) node elems srcpos ≠
          Except.ok (some w)) := by
  constructor
  · intro e w h
    obtain ⟨i, hi, he, hb, hm⟩ := initelemFrom_some node elems srcpos _ e w h
    have hilen : i < elems.length := List.mem_range.mp hi
    have hprops := mesh_barycentric_ok_some ((i : ℤ) + 1) node elems srcpos w hm
    have htn : ((i : ℤ) + 1 - 1).toNat = i := by omega
    refine ⟨hprops.1, ?_, ⟨i, hilen, he, hb, hm⟩⟩
    subst he
    rw [htn] at hprops ⊢
    exact hprops.2
  · intro h i hi hb w
    exact initelemFrom_none node elems srcpos _ h i (List.mem_range.mpr hi) hb w

/-- A point outside the witness tetrahedron. -/
def farPos : Vec3 := ⟨10, 10, 10⟩

/-- A point strictly inside the witness tetrahedron. -/
def innerPos : Vec3 := ⟨1/8, 1/8, 1/8⟩

theorem C2_mesh_initelem_witness :
    (∀ j, 0 ≤ (![5/8, 1/8, 1/8, 1/8] : Fin 4 → ℚ) j) ∧
    (![5/8, 1/8, 1/8, 1/8] : Fin 4 → ℚ) 0 +
      (![5/8, 1/8, 1/8, 1/8] : Fin 4 → ℚ) 1 +
      (![5/8, 1/8, 1/8, 1/8] : Fin 4 → ℚ) 2 +
      (![5/8, 1/8, 1/8, 1/8] : Fin 4 → ℚ) 3 = 1 := by
  have hbar : ∀ j : Fin 4, baryStored nodeW [[1, 2, 4, 3]] 0 innerPos j =
      ![5/8, 1/8, 1/8, 1/8] j := by
    intro j
    fin_cases j <;>
      norm_num [baryStored, baryRaw, ifacemap, outTable, vec_diff3,
        vec_cross3, vec_dot3, nodeW, innerPos]
  have hsum : barySum nodeW [[1, 2, 4, 3]] 0 innerPos = 1 := by
    unfold barySum
    rw [hbar 0, hbar 1, hbar 2, hbar 3]
    norm_num
  have hid : ((1 : ℤ) - 1).toNat = 0 := by norm_num
  have hmb : mesh_barycentric 1 nodeW [[1, 2, 4, 3]] innerPos =
      Except.ok (some ![5/8, 1/8, 1/8, 1/8]) := by
    unfold mesh_barycentric
    rw [if_neg (by norm_num)]
    simp only [hid]
    rw [if_neg (by rw [hbar 0, hbar 1, hbar 2, hbar 3]; norm_num)]
    refine congrArg _ (congrArg _ (funext fun j => ?_))
    rw [hbar j, hsum, div_one]
  have hbb : inBBox nodeW ([[1, 2, 4, 3]].getD 0 []) innerPos := by
    unfold inBBox bboxMin bboxMax VERY_BIG nodeW innerPos
    norm_num [List.foldl]
  have hval : mesh_initelem nodeW [[1, 2, 4, 3]] innerPos =
      some (1, ![5/8, 1/8, 1/8, 1/8]) := by
    unfold mesh_initelem
    have hr : List.range ([[1, 2, 4, 3]] : List (List ℕ)).length = [0] := rfl
    rw [hr]
    unfold initelemFrom
    rw [if_pos hbb]
    have h01 : ((0 : ℕ) : ℤ) + 1 = 1 := by norm_num
    rw [h01, hmb]
  have h := (C2_mesh_initelem nodeW [[1, 2, 4, 3]] innerPos).1 1
    ![5/8, 1/8, 1/8, 1/8] hval
  refine ⟨h.1, h.2.1 ?_⟩
  rw [hid, hsum]
  norm_num

/-! ## Fatal error when no element encloses the source (claim C9)

Lines 1073-1078 of `tracer_prep`: for the pencil, isotropic, cone and
arcsin source types, if the configured element `cfg->e0` is unset
(`<= 0`) or fails the barycentric test, the full-mesh scan is run, and
its failure raises the fatal `MESH_ERROR` — there is no non-fatal
fallback. -/

/-- Source types relevant to the initial-element check (`stPencil`,
`stIsotropic`, `stCone`, `stArcSin`), with a catch-all for all other
source types. -/
inductive SrcType where
  | stPencil
  | stIsotropic
  | stCone
  | stArcSin
  | stOther
deriving DecidableEq

/-- The source-location block of `tracer_prep` (lines 1073-1078),
returning the final `(cfg->e0, cfg->bary0)` on success and the fatal
error message otherwise. -/
def tracer_prep_locate (srctype : SrcType) (e0 : ℤ) (bary0 : Fin 4 → ℚ)
    (node : ℕ → Vec3) (elems : List (List ℕ)) (srcpos : Vec3) :
    Except String (ℤ × (Fin 4 → ℚ)) :=
  if srctype = SrcType.stPencil ∨ srctype = SrcType.stIsotropic ∨
      srctype = SrcType.stCone ∨ srctype = SrcType.stArcSin then
    if e0 ≤ 0 then
      match mesh_initelem node elems srcpos with
      | some r => Except.ok r
      | none => Except.error "initial element does not enclose the source!"
    else
      match mesh_barycentric e0 node elems srcpos with
      | Except.error msg => Except.error msg
      | Except.ok none =>
        match mesh_initelem node elems srcpos with
        | some r => Except.ok r
        | none => Except.error "initial element does not enclose the source!"
      | Except.ok (some w) => Except.ok (e0, w)
  else Except.ok (e0, bary0)

/-- C9: for the pencil, isotropic, cone and arcsin source types, when
the configured initial element does not pass the barycentric containment
test (or no element is configured) and the full-mesh scan finds no
enclosing element either, `tracer_prep` raises the fatal error
`"initial element does not enclose the source!"` — there is no
non-fatal fallback for this condition. -/
theorem C9_tracer_prep_fatal (srctype : SrcType) (e0 : ℤ)
    (bary0 : Fin 4 → ℚ) (node : ℕ → Vec3) (elems : List (List ℕ))
    (srcpos : Vec3)
    (hsrc : srctype = SrcType.stPencil ∨ srctype = SrcType.stIsotropic ∨
      srctype = SrcType.stCone ∨ srctype = SrcType.stArcSin)
    (hscan : mesh_initelem node elems srcpos = none)
    (hinit : e0 ≤ 0 ∨
      mesh_barycentric e0 node elems srcpos = Except.ok none) :
    tracer_prep_locate srctype e0 bary0 node elems srcpos =
      Except.error "initial element does not enclose the source!" := by
  unfold tracer_prep_locate
  rw [if_pos hsrc]
  rcases hinit with h0 | hbary
  · rw [if_pos h0, hscan]
  · by_cases h0 : e0 ≤ 0
    · rw [if_pos h0, hscan]
    · rw [if_neg h0, hbary, hscan]

theorem C9_tracer_prep_fatal_witness :
    tracer_prep_locate SrcType.stPencil 0 (fun _ => 0) nodeW [[1, 2, 3, 4]]
      farPos =
      Except.error "initial element does not enclose the source!" :=
  C9_tracer_prep_fatal SrcType.stPencil 0 (fun _ => 0) nodeW [[1, 2, 3, 4]]
    farPos (by decide) (by decide) (Or.inl (by decide))

/-! ## Energy normalization in `mesh_normalize` (claim C6)

Lines 1791-1800: when the output type is energy (and the run is not a
seed-replay Jacobian mode, which is caught by the earlier branch at line
1776), every entry `weight[(i*datalen+j)*srcnum+pair]` for `i < maxgate`,
`j < datalen` is multiplied by `normalizor = 1/Etotal`, and the factor is
returned.  The weight array is modelled as a total function on flat
indices. -/

/-- One inner-loop update of the energy branch:
`weight[(i*datalen+j)*srcnum+pair] *= normalizor`. -/
def normWeightStep (normalizor : ℚ) (datalen srcnum pair i : ℕ)
    (w : ℕ → ℚ) (j : ℕ) : ℕ → ℚ :=
  fun k => if k = (i * datalen + j) * srcnum + pair then w k * normalizor
    else w k

/-- The energy branch of `mesh_normalize` (lines 1791-1800): multiply the
selected source pattern's entries by `1/Etotal` over all time gates and
spatial bins, and return the factor. -/
def mesh_normalize_energy (weight : ℕ → ℚ) (maxgate datalen srcnum pair : ℕ)
    (Etotal : ℚ) : (ℕ → ℚ) × ℚ :=
  let normalizor : ℚ := 1 / Etotal
  ((List.range maxgate).foldl
    (fun w i => (List.range datalen).foldl
      (normWeightStep normalizor datalen srcnum pair i) w) weight,
    normalizor)

theorem foldl_normWeightStep (c : ℚ) (datalen srcnum pair i : ℕ)
    (l : List ℕ) (w : ℕ → ℚ) (idx : ℕ) :
    (l.foldl (normWeightStep c datalen srcnum pair i) w) idx =
      w idx * c ^ (l.countP
        (fun j => decide ((i * datalen + j) * srcnum + pair = idx))) := by
  induction l generalizing w with
  | nil => simp
  | cons a tl ih =>
    rw [List.foldl_cons, ih, List.countP_cons]
    by_cases h : (i * datalen + a) * srcnum + pair = idx
    · have h2 : idx = (i * datalen + a) * srcnum + pair := h.symm
      simp only [normWeightStep, if_pos h2, h]
      norm_num [pow_succ]
      ring
    · have h2 : ¬ (idx = (i * datalen + a) * srcnum + pair) :=
        fun hc => h hc.symm
      simp [normWeightStep, h2, h]

theorem foldl_normWeight_outer (c : ℚ) (datalen srcnum pair : ℕ)
    (L : List ℕ) (w : ℕ → ℚ) (idx : ℕ) :
    (L.foldl (fun w2 i => (List.range datalen).foldl
        (normWeightStep c datalen srcnum pair i) w2) w) idx =
      w idx * c ^ ((L.map (fun i => (List.range datalen).countP
        (fun j => decide ((i * datalen + j) * srcnum + pair = idx)))).sum) := by
  induction L generalizing w with
  | nil => simp
  | cons a tl ih =>
    rw [List.foldl_cons, ih, foldl_normWeightStep, List.map_cons,
      List.sum_cons, pow_add]
    ring

theorem countP_range_single (n j0 : ℕ) (p : ℕ → Prop) [DecidablePred p]
    (hiff : ∀ j, j < n → (p j ↔ j = j0)) (hj0 : j0 < n) :
    (List.range n).countP (fun j => decide (p j)) = 1 := by
  have hcongr : (List.range n).countP (fun j => decide (p j)) =
      (List.range n).countP (fun j => j == j0) := by
    apply List.countP_congr
    intro x hx
    have hxn : x < n := List.mem_range.mp hx
    simp [hiff x hxn]
  rw [hcongr]
  have : (List.range n).countP (fun j => j == j0) = (List.range n).count j0 := by
    rfl
  rw [this]
  exact List.count_eq_one_of_mem (List.nodup_range n) (List.mem_range.mpr hj0)

theorem sum_map_ite_eq_count (i : ℕ) (L : List ℕ) :
    (L.map (fun i2 => if i2 = i then (1 : ℕ) else 0)).sum = L.count i := by
  induction L with
  | nil => simp
  | cons a tl ih =>
    rw [List.map_cons, List.sum_cons, ih, List.count_cons]
    by_cases h : a = i
    · subst h
      simp [Nat.add_comm]
    · have h2 : ¬ (i = a) := fun hc => h hc.symm
      simp [h, h2]

/-- C6: in energy output mode (outside the seed-replay Jacobian branch),
`mesh_normalize` multiplies every weight entry of the selected source
pattern `pair` by the factor `1/Etotal`, leaves every entry of the other
source patterns unchanged, and returns that factor. -/
theorem C6_mesh_normalize_energy (weight : ℕ → ℚ)
    (maxgate datalen srcnum pair : ℕ) (Etotal : ℚ) (hp : pair < srcnum) :
    (mesh_normalize_energy weight maxgate datalen srcnum pair Etotal).2 =
      1 / Etotal ∧
    (∀ i < maxgate, ∀ j < datalen,
      (mesh_normalize_energy weight maxgate datalen srcnum pair Etotal).1
          ((i * datalen + j) * srcnum + pair) =
        weight ((i * datalen + j) * srcnum + pair) * (1 / Etotal)) ∧
    (∀ idx, idx % srcnum ≠ pair →
      (mesh_normalize_energy weight maxgate datalen srcnum pair Etotal).1 idx =
        weight idx) := by
  refine ⟨rfl, ?_, ?_⟩
  · intro i hi j hj
    show (List.foldl (fun w2 i2 => List.foldl
        (normWeightStep (1 / Etotal) datalen srcnum pair i2) w2
        (List.range datalen)) weight (List.range maxgate))
        ((i * datalen + j) * srcnum + pair) =
      weight ((i * datalen + j) * srcnum + pair) * (1 / Etotal)
    rw [foldl_normWeight_outer]
    have hsum : ((List.range maxgate).map (fun i2 =>
        (List.range datalen).countP (fun j2 => decide
          ((i2 * datalen + j2) * srcnum + pair =
            (i * datalen + j) * srcnum + pair)))).sum = 1 := by
      have hcnt : ∀ i2, (List.range datalen).countP (fun j2 => decide
          ((i2 * datalen + j2) * srcnum + pair =
            (i * datalen + j) * srcnum + pair)) =
          if i2 = i then 1 else 0 := by
        intro i2
        by_cases hii : i2 = i
        · subst hii
          rw [if_pos rfl]
          refine countP_range_single datalen j _ (fun j2 hj2 => ?_) hj
          constructor
          · intro he
            have hsn : 0 < srcnum := by omega
            have : i2 * datalen + j2 = i2 * datalen + j := by
              have := Nat.add_right_cancel he
              exact Nat.eq_of_mul_eq_mul_right hsn this
            omega
          · intro he
            subst he
            rfl
        · rw [if_neg hii]
          apply List.countP_eq_zero.mpr
          intro j2 hj2
          simp only [decide_eq_true_eq]
          intro he
          have hsn : 0 < srcnum := by omega
          have heq : i2 * datalen + j2 = i * datalen + j := by
            have := Nat.add_right_cancel he
            exact Nat.eq_of_mul_eq_mul_right hsn this
          have hj2n : j2 < datalen := List.mem_range.mp hj2
          rcases Nat.lt_trichotomy i2 i with hlt | heqi | hgt
          · nlinarith [Nat.mul_le_mul_right datalen (Nat.succ_le_of_lt hlt)]
          · exact hii heqi
          · nlinarith [Nat.mul_le_mul_right datalen (Nat.succ_le_of_lt hgt)]
      calc ((List.range maxgate).map (fun i2 =>
            (List.range datalen).countP (fun j2 => decide
              ((i2 * datalen + j2) * srcnum + pair =
                (i * datalen + j) * srcnum + pair)))).sum
          = ((List.range maxgate).map (fun i2 =>
              if i2 = i then 1 else 0)).sum := by
            apply congrArg
            exact List.map_congr_left (fun i2 _ => hcnt i2)
        _ = (List.range maxgate).count i := sum_map_ite_eq_count i _
        _ = 1 := List.count_eq_one_of_mem (List.nodup_range maxgate)
            (List.mem_range.mpr hi)
    rw [hsum, pow_one]
  · intro idx hidx
    show (List.foldl (fun w2 i2 => List.foldl
        (normWeightStep (1 / Etotal) datalen srcnum pair i2) w2
        (List.range datalen)) weight (List.range maxgate)) idx = weight idx
    rw [foldl_normWeight_outer]
    have hzero : ((List.range maxgate).map (fun i2 =>
        (List.range datalen).countP (fun j2 => decide
          ((i2 * datalen + j2) * srcnum + pair = idx)))).sum = 0 := by
      apply List.sum_eq_zero
      intro x hx
      simp only [List.mem_map] at hx
      obtain ⟨i2, _, rfl⟩ := hx
      apply List.countP_eq_zero.mpr
      intro j2 _
      simp only [decide_eq_true_eq]
      intro he
      apply hidx
      rw [← he]
      rw [Nat.add_comm, Nat.add_mul_mod_self_right, Nat.mod_eq_of_lt hp]
    rw [hzero, pow_zero, mul_one]

theorem C6_mesh_normalize_energy_witness :
    (mesh_normalize_energy (fun _ => 1) 2 3 2 1 5).2 = 1 / 5 ∧
    (∀ i < 2, ∀ j < 3,
      (mesh_normalize_energy (fun _ => 1) 2 3 2 1 5).1
          ((i * 3 + j) * 2 + 1) =
        (fun _ : ℕ => (1 : ℚ)) ((i * 3 + j) * 2 + 1) * (1 / 5)) ∧
    (∀ idx, idx % 2 ≠ 1 →
      (mesh_normalize_energy (fun _ => 1) 2 3 2 1 5).1 idx =
        (fun _ : ℕ => (1 : ℚ)) idx) :=
  C6_mesh_normalize_energy (fun _ => 1) 2 3 2 1 5 (by decide)

/-! ## Source/detector element classification (claim C7)

`mesh_srcdetelem` (lines 379-416) scans the region ids: ids equal to -1
(candidate source elements) have their 1-based indices recorded in
`mesh->srcelem` and are reset to 0; ids equal to -2 (wide-field detector
elements) are recorded in `mesh->detelem`, kept at -2, and cause
`cfg->isextdet = 1`.  `mesh_loadmedia` (lines 499-516) then builds the
media table — `med[0] = {mua = 0, mus = 0, g = 1, n = cfg->nout}` — and,
when `isextdet` is set, copies `med[0]` into the synthetic slot
`med[prop+1]` and remaps every remaining -2 id to `prop+1`. -/

/-- An optical medium (the C `medium` struct). -/
structure Medium where
  mua : ℚ
  mus : ℚ
  g : ℚ
  n : ℚ
deriving DecidableEq

/-- The classification scan of `mesh_srcdetelem` starting at 0-based
element index `i0`: returns (srcelem, detelem, updated region ids). -/
def srcdetScan : List ℤ → ℕ → List ℕ × List ℕ × List ℤ
  | [], _ => ([], [], [])
  | t :: rest, i0 =>
    let r := srcdetScan rest (i0 + 1)
    if t = -1 then ((i0 + 1) :: r.1, r.2.1, 0 :: r.2.2)
    else if t = -2 then (r.1, (i0 + 1) :: r.2.1, -2 :: r.2.2)
    else (r.1, r.2.1, t :: r.2.2)

/-- `mesh_srcdetelem`: the recorded source/detector element lists, the
updated region ids, and the `cfg->isextdet` flag (set when any region id
equals -2). -/
def mesh_srcdetelem (types : List ℤ) : List ℕ × List ℕ × List ℤ × Bool :=
  let r := srcdetScan types 0
  (r.1, r.2.1, r.2.2, decide ((-2 : ℤ) ∈ types))

/-- The default medium 0 written by `mesh_loadmedia` (lines 502-505):
`mua = 0`, `mus = 0`, `g = 1`, `n = cfg->nout`. -/
def med0 (nout : ℚ) : Medium := ⟨0, 0, 1, nout⟩

/-- The -2 → prop+1 region remap of `mesh_loadmedia` (lines 508-516),
performed only when an external detector is present. -/
def loadmedia_remap (prop : ℕ) (isextdet : Bool) (types : List ℤ) :
    List ℤ :=
  if isextdet then
    types.map (fun t => if t = -2 then ((prop : ℤ) + 1) else t)
  else types

/-- The final media table of `mesh_loadmedia`: slot `prop+1` receives the
copy of the default medium 0 made at line 509 (before the user properties
overwrite slots `0..prop` at line 528); slots `1..prop` get the user
properties, scaled by `unitinmm` for a non-grid method (lines 531-536). -/
def loadmedia_med (prop : ℕ) (nout unitinmm : ℚ) (gridmethod : Bool)
    (isextdet : Bool) (userprop : ℕ → Medium) : ℕ → Medium :=
  fun i =>
    if isextdet ∧ i = prop + 1 then med0 nout
    else
      let base := userprop i
      if ¬gridmethod ∧ unitinmm ≠ 1 ∧ 1 ≤ i ∧ i ≤ prop then
        ⟨base.mua * unitinmm, base.mus * unitinmm, base.g, base.n⟩
      else base

theorem srcdetScan_types (types : List ℤ) (i0 : ℕ) :
    (srcdetScan types i0).2.2 =
      types.map (fun t => if t = -1 then 0 else t) := by
  induction types generalizing i0 with
  | nil => simp [srcdetScan]
  | cons t rest ih =>
    by_cases h1 : t = -1
    · simp [srcdetScan, h1, ih]
    · by_cases h2 : t = -2
      · simp [srcdetScan, h1, h2, ih]
      · simp [srcdetScan, h1, h2, ih]

theorem srcdetScan_srcelem (types : List ℤ) (i0 : ℕ) :
    (srcdetScan types i0).1 =
      ((List.enumFrom i0 types).filter (fun p => p.2 = -1)).map
        (fun p => p.1 + 1) := by
  induction types generalizing i0 with
  | nil => simp [srcdetScan]
  | cons t rest ih =>
    by_cases h1 : t = -1
    · simp only [srcdetScan, h1, if_pos rfl, List.enumFrom]
      rw [List.filter_cons_of_pos (by simp [h1])]
      simp [ih]
    · have hrec : (srcdetScan (t :: rest) i0).1 =
          (srcdetScan rest (i0 + 1)).1 := by
        by_cases h2 : t = -2 <;> simp [srcdetScan, h1, h2]
      rw [hrec, List.enumFrom, List.filter_cons_of_neg (by simp [h1])]
      exact ih (i0 + 1)

/-- C7: after `mesh_srcdetelem` and the `mesh_loadmedia` remap, no
element's region id equals -1 (each such element's 1-based index was
recorded in `srcelem`, in scan order, and its id reset to 0), every
element whose id was -2 now has id `prop+1`, and the synthetic region
`prop+1` carries the default medium-0 values: `mua = 0`, `mus = 0`, and
refractive index `cfg->nout`. -/
theorem C7_mesh_srcdetelem_loadmedia (types : List ℤ) (prop : ℕ)
    (nout unitinmm : ℚ) (gridmethod : Bool) (userprop : ℕ → Medium) :
    ((mesh_srcdetelem types).1 =
      ((types.enum.filter (fun p => p.2 = -1)).map (fun p => p.1 + 1))) ∧
    (∀ t ∈ loadmedia_remap prop (mesh_srcdetelem types).2.2.2
        (mesh_srcdetelem types).2.2.1, t ≠ -1) ∧
    (∀ (i : ℕ) (h : i < types.length), types[i] = -1 →
      (loadmedia_remap prop (mesh_srcdetelem types).2.2.2
        (mesh_srcdetelem types).2.2.1).getD i 9 = 0) ∧
    (∀ (i : ℕ) (h : i < types.length), types[i] = -2 →
      (loadmedia_remap prop (mesh_srcdetelem types).2.2.2
        (mesh_srcdetelem types).2.2.1).getD i 9 = (prop : ℤ) + 1) ∧
    ((mesh_srcdetelem types).2.2.2 = true →
      loadmedia_med prop nout unitinmm gridmethod true userprop (prop + 1) =
        ⟨0, 0, 1, nout⟩) := by
  have htypes : (mesh_srcdetelem types).2.2.1 =
      types.map (fun t => if t = -1 then 0 else t) := srcdetScan_types types 0
  refine ⟨?_, ?_, ?_, ?_, ?_⟩
  · rw [show (mesh_srcdetelem types).1 = (srcdetScan types 0).1 from rfl,
      srcdetScan_srcelem]
    rfl
  · intro t ht
    unfold loadmedia_remap at ht
    rw [htypes] at ht
    by_cases hx : (mesh_srcdetelem types).2.2.2 = true
    · rw [if_pos hx, List.map_map] at ht
      obtain ⟨t0, _, rfl⟩ := List.mem_map.mp ht
      simp only [Function.comp]
      by_cases h1 : t0 = -1
      · simp [h1]
      · by_cases h2 : t0 = -2
        · simp only [h1, if_neg, h2, if_pos]
          simp [h2]
          omega
        · simp [h1, h2]
    · rw [if_neg (by simpa using hx)] at ht
      obtain ⟨t0, ht0, rfl⟩ := List.mem_map.mp ht
      by_cases h1 : t0 = -1
      · simp [h1]
      · have hext : (mesh_srcdetelem types).2.2.2 = decide ((-2 : ℤ) ∈ types) :=
          rfl
        have hne2 : t0 ≠ -2 := by
          intro hc
          apply hx
          rw [hext]
          simp only [decide_eq_true_eq]
          exact hc ▸ ht0
        simp [h1, hne2]
  · intro i h h1
    unfold loadmedia_remap
    rw [htypes]
    have hmm : (types.map (fun t => if t = -1 then 0 else t)).getD i 9 =
        (0 : ℤ) := by
      rw [List.getD_eq_getElem _ _ (by simpa using h)]
      simp only [List.getElem_map]
      simp [h1]
    by_cases hx : (mesh_srcdetelem types).2.2.2 = true
    · rw [if_pos hx, List.map_map]
      rw [List.getD_eq_getElem _ _ (by simpa using h)]
      simp only [List.getElem_map, Function.comp]
      simp [h1]
    · rw [if_neg (by simpa using hx)]
      exact hmm
  · intro i h h2
    have hext : (mesh_srcdetelem types).2.2.2 = true := by
      rw [show (mesh_srcdetelem types).2.2.2 = decide ((-2 : ℤ) ∈ types)
        from rfl]
      simp only [decide_eq_true_eq]
      have : types[i] ∈ types := List.getElem_mem h
      exact h2 ▸ this
    unfold loadmedia_remap
    rw [htypes, if_pos hext, List.map_map]
    rw [List.getD_eq_getElem _ _ (by simpa using h)]
    simp only [List.getElem_map, Function.comp]
    have hne1 : types[i] ≠ -1 := by rw [h2]; decide
    simp [h2]
  · intro hx
    unfold loadmedia_med
    rw [if_pos ⟨rfl, rfl⟩]
    rfl

theorem C7_mesh_srcdetelem_loadmedia_witness :
    ((mesh_srcdetelem [3, -1, -2, 1]).1 =
      ((([3, -1, -2, 1] : List ℤ).enum.filter (fun p => p.2 = -1)).map
        (fun p => p.1 + 1))) ∧
    (∀ t ∈ loadmedia_remap 4 (mesh_srcdetelem [3, -1, -2, 1]).2.2.2
        (mesh_srcdetelem [3, -1, -2, 1]).2.2.1, t ≠ -1) ∧
    (∀ (i : ℕ) (h : i < ([3, -1, -2, 1] : List ℤ).length),
      ([3, -1, -2, 1] : List ℤ)[i] = -1 →
      (loadmedia_remap 4 (mesh_srcdetelem [3, -1, -2, 1]).2.2.2
        (mesh_srcdetelem [3, -1, -2, 1]).2.2.1).getD i 9 = 0) ∧
    (∀ (i : ℕ) (h : i < ([3, -1, -2, 1] : List ℤ).length),
      ([3, -1, -2, 1] : List ℤ)[i] = -2 →
      (loadmedia_remap 4 (mesh_srcdetelem [3, -1, -2, 1]).2.2.2
        (mesh_srcdetelem [3, -1, -2, 1]).2.2.1).getD i 9 = (4 : ℤ) + 1) ∧
    ((mesh_srcdetelem [3, -1, -2, 1]).2.2.2 = true →
      loadmedia_med 4 (7/5) 1 false true (fun _ => ⟨1, 2, 3, 4⟩) 5 =
        ⟨0, 0, 1, 7/5⟩) :=
  C7_mesh_srcdetelem_loadmedia [3, -1, -2, 1] 4 (7/5) 1 false
    (fun _ => ⟨1, 2, 3, 4⟩)

/-! ## Reflective-boundary nodal-volume correction (claim C8)

Lines 1111-1135 of `tracer_prep` (active when `cfg->isnormalized == 1`,
the method is not the grid variant, and the basis order is nodal): for
every element face with a zero adjacency entry (an exterior triangle),
each of the face's three nodes whose `nvol` is still positive — and whose
element has a non-negative region id — is multiplied by
`-(2/(1+Reff[type]))`; the transient negative sign marks the node as
already adjusted, and a final pass replaces every negative entry by its
absolute value.  An element is modelled as (node-index list, face
adjacency row, region id); `Reff` as a function of the region id. -/

/-- The 0-based node id of the k-th node of face `j`
(`elems[out[ifaceorder[j]][k]] - 1`, line 1118). -/
def surfNodeId (ee : List ℕ) (j : Fin 4) (k : Fin 3) : ℕ :=
  ee.getD (outTable (ifaceorder j) k) 1 - 1

/-- One conditional node update (lines 1120-1122): multiply `nvol[nid]`
by `-(2/(1+Reff[ty]))` when it is still positive and the region id is
non-negative. -/
def nvolAdjustNode (Reff : ℤ → ℚ) (ty : ℤ) (nv : ℕ → ℚ) (nid : ℕ) :
    ℕ → ℚ :=
  if 0 < nv nid ∧ 0 ≤ ty then
    fun n => if n = nid then nv n * (-(2 / (1 + Reff ty))) else nv n
  else nv

/-- Processing of one element by the surface loop (lines 1111-1126):
faces with zero adjacency entries have their three nodes updated. -/
def nvolAdjustElem (Reff : ℤ → ℚ) (p : List ℕ × List ℤ × ℤ)
    (nv : ℕ → ℚ) : ℕ → ℚ :=
  (List.finRange 4).foldl (fun nv2 j =>
    if p.2.1.getD j.val 1 = 0 then
      (List.finRange 3).foldl (fun nv3 k =>
        nvolAdjustNode Reff p.2.2 nv3 (surfNodeId p.1 j k)) nv2
    else nv2) nv

/-- The full surface-adjustment pass over all elements. -/
def tracer_nvolAdjust (Reff : ℤ → ℚ) (elems : List (List ℕ × List ℤ × ℤ))
    (nvol0 : ℕ → ℚ) : ℕ → ℚ :=
  elems.foldl (fun nv p => nvolAdjustElem Reff p nv) nvol0

/-- The final absolute-value pass (lines 1130-1134). -/
def tracer_nvolAbs (nv : ℕ → ℚ) : ℕ → ℚ :=
  fun n => if nv n < 0 then -(nv n) else nv n

/-- Node `n` is a node of some exterior face of element `p` whose region
id is non-negative: exactly the condition under which the surface loop
touches `nvol[n]`. -/
def SurfTrig (p : List ℕ × List ℤ × ℤ) (n : ℕ) : Prop :=
  0 ≤ p.2.2 ∧ ∃ j : Fin 4, p.2.1.getD j.val 1 = 0 ∧
    ∃ k : Fin 3, surfNodeId p.1 j k = n

instance (p : List ℕ × List ℤ × ℤ) (n : ℕ) : Decidable (SurfTrig p n) := by
  unfold SurfTrig
  infer_instance

/-- The flattened list of node ids touched while processing element `p`. -/
def elemEvents (p : List ℕ × List ℤ × ℤ) : List ℕ :=
  (((List.finRange 4).filter (fun j => p.2.1.getD j.val 1 = 0)).flatMap
    (fun j => (List.finRange 3).map (fun k => surfNodeId p.1 j k)))

theorem foldl_filter_eq {α β : Type} (f : β → α → β) (q : α → Bool)
    (l : List α) (b : β) :
    (l.filter q).foldl f b =
      l.foldl (fun acc a => if q a then f acc a else acc) b := by
  induction l generalizing b with
  | nil => simp
  | cons a tl ih =>
    by_cases h : q a
    · rw [List.filter_cons_of_pos h, List.foldl_cons, List.foldl_cons, if_pos h, ih]
    · rw [List.filter_cons_of_neg (by simpa using h), List.foldl_cons,
        if_neg (by simpa using h), ih]

theorem foldl_bind_eq {α β γ : Type} (f : β → γ → β) (g : α → List γ)
    (l : List α) (b : β) :
    (l.flatMap g).foldl f b = l.foldl (fun acc a => (g a).foldl f acc) b := by
  induction l generalizing b with
  | nil => simp
  | cons a tl ih =>
    rw [List.flatMap_cons, List.foldl_append, List.foldl_cons, ih]

theorem foldl_map_eq {α β γ : Type} (f : β → γ → β) (g : α → γ)
    (l : List α) (b : β) :
    (l.map g).foldl f b = l.foldl (fun acc a => f acc (g a)) b := by
  induction l generalizing b with
  | nil => simp
  | cons a tl ih =>
    rw [List.map_cons, List.foldl_cons, List.foldl_cons, ih]

theorem nvolAdjustElem_events (Reff : ℤ → ℚ) (p : List ℕ × List ℤ × ℤ)
    (nv : ℕ → ℚ) :
    nvolAdjustElem Reff p nv =
      (elemEvents p).foldl (nvolAdjustNode Reff p.2.2) nv := by
  unfold nvolAdjustElem elemEvents
  rw [foldl_bind_eq, foldl_filter_eq]
  have hfg : (fun (nv2 : ℕ → ℚ) (j : Fin 4) =>
      if p.2.1.getD j.val 1 = 0 then
        (List.finRange 3).foldl (fun nv3 k =>
          nvolAdjustNode Reff p.2.2 nv3 (surfNodeId p.1 j k)) nv2
      else nv2) =
      (fun (acc : ℕ → ℚ) (j : Fin 4) =>
        if (fun j2 : Fin 4 => decide (p.2.1.getD j2.val 1 = 0)) j then
          ((List.finRange 3).map (fun k => surfNodeId p.1 j k)).foldl
            (nvolAdjustNode Reff p.2.2) acc
        else acc) := by
    funext acc j
    by_cases h : p.2.1.getD j.val 1 = 0
    · rw [if_pos h, if_pos (by simpa using h), foldl_map_eq]
    · rw [if_neg h, if_neg (by simpa using h)]
  rw [hfg]

theorem mem_elemEvents (p : List ℕ × List ℤ × ℤ) (n : ℕ) :
    n ∈ elemEvents p ↔ ∃ j : Fin 4, p.2.1.getD j.val 1 = 0 ∧
      ∃ k : Fin 3, surfNodeId p.1 j k = n := by
  unfold elemEvents
  simp only [List.mem_flatMap, List.mem_filter, List.mem_map,
    List.mem_finRange, true_and, decide_eq_true_eq]

theorem foldl_adjustAt_spec (Reff : ℤ → ℚ) (ty : ℤ)
    (hpos : 0 < 1 + Reff ty) (evs : List ℕ) (nv : ℕ → ℚ) (n : ℕ) :
    ((evs.foldl (nvolAdjustNode Reff ty) nv) n = nv n ∧
      (¬ 0 ≤ ty ∨ n ∉ evs ∨ ¬ 0 < nv n)) ∨
    (0 ≤ ty ∧ n ∈ evs ∧ 0 < nv n ∧
      (evs.foldl (nvolAdjustNode Reff ty) nv) n =
        -(2 / (1 + Reff ty)) * nv n) := by
  induction evs generalizing nv with
  | nil => exact Or.inl ⟨rfl, Or.inr (Or.inl (by simp))⟩
  | cons nid evs ih =>
    rw [List.foldl_cons]
    by_cases hfire : 0 < nv nid ∧ 0 ≤ ty
    · have hupd : nvolAdjustNode Reff ty nv nid =
          fun m => if m = nid then nv m * (-(2 / (1 + Reff ty))) else nv m := by
        unfold nvolAdjustNode
        rw [if_pos hfire]
      by_cases hn : n = nid
      · subst hn
        have hneg : (nvolAdjustNode Reff ty nv n) n =
            nv n * (-(2 / (1 + Reff ty))) := by
          rw [hupd]
          simp
        have hlt : (nvolAdjustNode Reff ty nv n) n < 0 := by
          rw [hneg]
          have h2 : 0 < 2 / (1 + Reff ty) := by positivity
          nlinarith [hfire.1]
        rcases ih (nvolAdjustNode Reff ty nv n) with ⟨heq, _⟩ | ⟨_, _, hpos2, _⟩
        · refine Or.inr ⟨hfire.2, List.mem_cons_self _ _, hfire.1, ?_⟩
          rw [heq, hneg]
          ring
        · exact absurd hpos2 (by linarith)
      · have hkeep : (nvolAdjustNode Reff ty nv nid) n = nv n := by
          rw [hupd]
          simp [hn]
        rcases ih (nvolAdjustNode Reff ty nv nid) with ⟨heq, hside⟩ |
            ⟨hty, hmem, hpos2, heq⟩
        · refine Or.inl ⟨by rw [heq, hkeep], ?_⟩
          rcases hside with h | h | h
          · exact Or.inl h
          · exact Or.inr (Or.inl (by simp [hn, h]))
          · exact Or.inr (Or.inr (by rwa [hkeep] at h))
        · refine Or.inr ⟨hty, List.mem_cons_of_mem _ hmem, ?_, ?_⟩
          · rwa [hkeep] at hpos2
          · rw [heq, hkeep]
    · have hkeep : nvolAdjustNode Reff ty nv nid = nv := by
        unfold nvolAdjustNode
        rw [if_neg hfire]
      rw [hkeep]
      rcases ih nv with ⟨heq, hside⟩ | ⟨hty, hmem, hpos2, heq⟩
      · refine Or.inl ⟨heq, ?_⟩
        rcases hside with h | h | h
        · exact Or.inl h
        · by_cases hn : n = nid
          · subst hn
            rcases Decidable.not_and_iff_or_not.mp hfire with h2 | h2
            · exact Or.inr (Or.inr h2)
            · exact Or.inl h2
          · exact Or.inr (Or.inl (by simp [hn, h]))
        · exact Or.inr (Or.inr h)
      · exact Or.inr ⟨hty, List.mem_cons_of_mem _ hmem, hpos2, heq⟩

theorem nvolAdjustElem_spec (Reff : ℤ → ℚ) (p : List ℕ × List ℤ × ℤ)
    (hpos : 0 < 1 + Reff p.2.2) (nv : ℕ → ℚ) (n : ℕ) :
    ((nvolAdjustElem Reff p nv) n = nv n ∧ ¬ (SurfTrig p n ∧ 0 < nv n)) ∨
    (SurfTrig p n ∧ 0 < nv n ∧
      (nvolAdjustElem Reff p nv) n = -(2 / (1 + Reff p.2.2)) * nv n) := by
  rw [nvolAdjustElem_events]
  rcases foldl_adjustAt_spec Reff p.2.2 hpos (elemEvents p) nv n with
    ⟨heq, hside⟩ | ⟨hty, hmem, hp2, heq⟩
  · refine Or.inl ⟨heq, ?_⟩
    rintro ⟨⟨hty, hj⟩, hpn⟩
    rcases hside with h | h | h
    · exact h hty
    · exact h ((mem_elemEvents p n).mpr hj)
    · exact h hpn
  · exact Or.inr ⟨⟨hty, (mem_elemEvents p n).mp hmem⟩, hp2, heq⟩

theorem tracer_nvolAdjust_spec (Reff : ℤ → ℚ)
    (hR : ∀ t, 0 ≤ Reff t) (elems : List (List ℕ × List ℤ × ℤ))
    (nvol0 : ℕ → ℚ) (n : ℕ) :
    ((tracer_nvolAdjust Reff elems nvol0) n = nvol0 n ∧
      ∀ p ∈ elems, ¬ (SurfTrig p n ∧ 0 < nvol0 n)) ∨
    (0 < nvol0 n ∧ ∃ p ∈ elems, SurfTrig p n ∧
      (tracer_nvolAdjust Reff elems nvol0) n =
        -(2 / (1 + Reff p.2.2)) * nvol0 n) := by
  induction elems generalizing nvol0 with
  | nil => exact Or.inl ⟨rfl, by simp⟩
  | cons p rest ih =>
    have hpos : 0 < 1 + Reff p.2.2 := by linarith [hR p.2.2]
    have hstep : tracer_nvolAdjust Reff (p :: rest) nvol0 =
        tracer_nvolAdjust Reff rest (nvolAdjustElem Reff p nvol0) := rfl
    rw [hstep]
    rcases nvolAdjustElem_spec Reff p hpos nvol0 n with ⟨heq, hnot⟩ |
        ⟨htrig, hp0, heq⟩
    · rcases ih (nvolAdjustElem Reff p nvol0) with ⟨heq2, hall⟩ |
          ⟨hp2, q, hq, htq, heq2⟩
      · refine Or.inl ⟨by rw [heq2, heq], ?_⟩
        intro q hq
        rcases List.mem_cons.mp hq with rfl | hqr
        · exact hnot
        · intro ⟨ht, hpn⟩
          exact hall q hqr ⟨ht, by rwa [heq]⟩
      · refine Or.inr ⟨by rwa [heq] at hp2, q,
          List.mem_cons_of_mem _ hq, htq, ?_⟩
        rw [heq2, heq]
    · have hneg : (nvolAdjustElem Reff p nvol0) n < 0 := by
        rw [heq]
        have h2 : 0 < 2 / (1 + Reff p.2.2) := by positivity
        nlinarith
      rcases ih (nvolAdjustElem Reff p nvol0) with ⟨heq2, _⟩ |
          ⟨hp2, _, _, _⟩
      · refine Or.inr ⟨hp0, p, List.mem_cons_self _ _, htrig, ?_⟩
        rw [heq2, heq]
      · exact absurd hp2 (by linarith)

/-- C8: with the normalization flag set (nodal basis, non-grid tracer),
`tracer_prep` multiplies each boundary-adjacent node's volume by
`2/(1+Reff[region])` of an adjacent boundary element exactly once — the
transient negation marks a node as already adjusted, so a node shared by
several boundary faces is never scaled twice — and after the final
absolute-value pass every `nvol` entry is non-negative.  (`Reff` values
are non-negative, as produced by `mesh_getreff` or the zeroed array.) -/
theorem C8_tracer_prep_nvol (Reff : ℤ → ℚ)
    (elems : List (List ℕ × List ℤ × ℤ)) (nvol0 : ℕ → ℚ)
    (hR : ∀ t, 0 ≤ Reff t) :
    (∀ n, 0 ≤ tracer_nvolAbs (tracer_nvolAdjust Reff elems nvol0) n) ∧
    (∀ n, 0 < nvol0 n →
      ((tracer_nvolAbs (tracer_nvolAdjust Reff elems nvol0) n = nvol0 n ∧
         ∀ p ∈ elems, ¬ SurfTrig p n) ∨
       (∃ p ∈ elems, SurfTrig p n ∧
         tracer_nvolAbs (tracer_nvolAdjust Reff elems nvol0) n =
           (2 / (1 + Reff p.2.2)) * nvol0 n))) := by
  constructor
  · intro n
    unfold tracer_nvolAbs
    by_cases h : (tracer_nvolAdjust Reff elems nvol0) n < 0
    · rw [if_pos h]
      linarith
    · rw [if_neg h]
      linarith [not_lt.mp h]
  · intro n hp0
    rcases tracer_nvolAdjust_spec Reff hR elems nvol0 n with ⟨heq, hall⟩ |
        ⟨_, p, hp, htrig, heq⟩
    · refine Or.inl ⟨?_, fun p hp ht => hall p hp ⟨ht, hp0⟩⟩
      unfold tracer_nvolAbs
      rw [heq, if_neg (by linarith)]
    · refine Or.inr ⟨p, hp, htrig, ?_⟩
      unfold tracer_nvolAbs
      have hpos : 0 < 1 + Reff p.2.2 := by linarith [hR p.2.2]
      have h2 : 0 < 2 / (1 + Reff p.2.2) := by positivity
      have hneg : (tracer_nvolAdjust Reff elems nvol0) n < 0 := by
        rw [heq]
        nlinarith
      rw [if_pos hneg, heq]
      ring

theorem C8_tracer_prep_nvol_witness :
    (∀ n, 0 ≤ tracer_nvolAbs (tracer_nvolAdjust (fun _ => 0)
      [([1, 2, 3, 4], [0, 0, 0, 0], 1)] (fun n => if n < 4 then 1 else 0)) n) ∧
    (∀ n, 0 < (fun n : ℕ => if n < 4 then (1 : ℚ) else 0) n →
      ((tracer_nvolAbs (tracer_nvolAdjust (fun _ => 0)
          [([1, 2, 3, 4], [0, 0, 0, 0], 1)]
          (fun n => if n < 4 then 1 else 0)) n =
            (fun n : ℕ => if n < 4 then (1 : ℚ) else 0) n ∧
         ∀ p ∈ [(([1, 2, 3, 4] : List ℕ), ([0, 0, 0, 0] : List ℤ), (1 : ℤ))],
           ¬ SurfTrig p n) ∨
       (∃ p ∈ [(([1, 2, 3, 4] : List ℕ), ([0, 0, 0, 0] : List ℤ), (1 : ℤ))],
         SurfTrig p n ∧
         tracer_nvolAbs (tracer_nvolAdjust (fun _ => 0)
           [([1, 2, 3, 4], [0, 0, 0, 0], 1)]
           (fun n => if n < 4 then 1 else 0)) n =
             (2 / (1 + (fun _ : ℤ => (0 : ℚ)) p.2.2)) *
               (fun n : ℕ => if n < 4 then (1 : ℚ) else 0) n))) :=
  C8_tracer_prep_nvol (fun _ => 0) [([1, 2, 3, 4], [0, 0, 0, 0], 1)]
    (fun n => if n < 4 then 1 else 0) (fun _ => le_refl 0)

/-! ## Henyey-Greenstein scattering sampling (claims C3, C10)

`mc_next_scatter` (lines 1406-1477) samples the polar angle from the
Henyey-Greenstein phase function when `g > EPS` (with the result clamped
into `[-1, 1]`), samples it uniformly otherwise, samples the azimuthal
angle as `2π·ξ`, and rotates the direction vector — with a special case
for near-axis directions.  The floats are modelled as exact reals, the
random draws as real parameters in `[0, 1)`. -/

/-- Modelled from the spec: the `EPS` constant of the constants header
(not under `src/`), a small positive threshold. -/
noncomputable def EPS : ℝ := 1 / 1000000

/-- A direction vector with real components. -/
structure RVec3 where
  x : ℝ
  y : ℝ
  z : ℝ

/-- The sampled `cosθ` of `mc_next_scatter` (lines 1432-1453): the
Henyey-Greenstein inversion clamped into `[-1, 1]` when `g > EPS`, else
`cos` of `acos(2ξ-1)`. -/
noncomputable def hg_ctheta (g ξ : ℝ) : ℝ :=
  if EPS < g then
    let t0 := (1 - g * g) / (1 - g + 2 * g * ξ)
    let t1 := t0 * t0
    let t2 := (1 + g * g - t1) / (2 * g)
    if 1 < t2 then 1 else if t2 < -1 then -1 else t2
  else Real.cos (Real.arccos (2 * ξ - 1))

/-- The sampled `sinθ` (lines 1447, 1452). -/
noncomputable def hg_stheta (g ξ : ℝ) : ℝ :=
  if EPS < g then Real.sqrt (1 - hg_ctheta g ξ * hg_ctheta g ξ)
  else Real.sin (Real.arccos (2 * ξ - 1))

/-- The sampled azimuthal angle `tmp0 = TWO_PI * rand` (line 1425). -/
noncomputable def azimuthPhi (ξ : ℝ) : ℝ := 2 * Real.pi * ξ

/-- The direction update of `mc_next_scatter` (lines 1455-1467): the
general rotation branch for `-1 + EPS < z < 1 - EPS`, and the near-axis
special case otherwise. -/
noncomputable def scatterDir (dir : RVec3) (stheta ctheta sphi cphi : ℝ) :
    RVec3 :=
  if -1 + EPS < dir.z ∧ dir.z < 1 - EPS then
    let tmp0 := 1 - dir.z * dir.z
    let tmp1 := stheta * (1 / Real.sqrt tmp0)
    ⟨tmp1 * (dir.x * dir.z * cphi - dir.y * sphi) + dir.x * ctheta,
     tmp1 * (dir.y * dir.z * cphi + dir.x * sphi) + dir.y * ctheta,
     -tmp1 * tmp0 * cphi + dir.z * ctheta⟩
  else
    ⟨stheta * cphi, stheta * sphi, if 0 < dir.z then ctheta else -ctheta⟩

/-- The full direction update: sample `θ` and `φ` from the draws, then
rotate. -/
noncomputable def mc_next_scatter_dir (g ξz ξa : ℝ) (dir : RVec3) : RVec3 :=
  scatterDir dir (hg_stheta g ξz) (hg_ctheta g ξz)
    (Real.sin (azimuthPhi ξa)) (Real.cos (azimuthPhi ξa))

theorem hg_ctheta_bounds (g ξ : ℝ) (hg : EPS < g) :
    -1 ≤ hg_ctheta g ξ ∧ hg_ctheta g ξ ≤ 1 := by
  unfold hg_ctheta
  rw [if_pos hg]
  set t2 := (1 + g * g - ((1 - g * g) / (1 - g + 2 * g * ξ)) *
    ((1 - g * g) / (1 - g + 2 * g * ξ))) / (2 * g) with ht2
  by_cases h1 : 1 < t2
  · rw [if_pos h1]
    norm_num
  · rw [if_neg h1]
    by_cases h2 : t2 < -1
    · rw [if_pos h2]
      norm_num
    · rw [if_neg h2]
      push_neg at h1 h2
      exact ⟨h2, h1⟩

/-- C3: when `g > EPS`, the sampled polar cosine equals the
Henyey-Greenstein expression `(1/(2g))·(1+g² - ((1-g²)/(1-g+2gξ))²)`
clamped into `[-1, 1]`; when `g ≤ EPS` and the draw lies in `[0, 1]`, the
cosine is `2ξ-1` (uniform on `[-1, 1]`); and the azimuthal angle `2πξ`
lies in `[0, 2π)` for a draw in `[0, 1)`. -/
theorem C3_mc_next_scatter_sampling (g ξ ξa : ℝ) :
    (EPS < g →
      hg_ctheta g ξ = max (-1) (min 1
        ((1 / (2 * g)) * (1 + g ^ 2 - ((1 - g ^ 2) / (1 - g + 2 * g * ξ)) ^ 2))) ∧
      -1 ≤ hg_ctheta g ξ ∧ hg_ctheta g ξ ≤ 1) ∧
    (g ≤ EPS → 0 ≤ ξ → ξ ≤ 1 →
      hg_ctheta g ξ = 2 * ξ - 1 ∧
      -1 ≤ hg_ctheta g ξ ∧ hg_ctheta g ξ ≤ 1) ∧
    (0 ≤ ξa → ξa < 1 →
      0 ≤ azimuthPhi ξa ∧ azimuthPhi ξa < 2 * Real.pi) := by
  refine ⟨fun hg => ⟨?_, hg_ctheta_bounds g ξ hg⟩, fun hg h0 h1 => ?_, fun h0 h1 => ?_⟩
  · have hexp : hg_ctheta g ξ =
        (if 1 < (1 + g * g - ((1 - g * g) / (1 - g + 2 * g * ξ)) *
            ((1 - g * g) / (1 - g + 2 * g * ξ))) / (2 * g) then (1 : ℝ)
         else if (1 + g * g - ((1 - g * g) / (1 - g + 2 * g * ξ)) *
            ((1 - g * g) / (1 - g + 2 * g * ξ))) / (2 * g) < -1 then -1
         else (1 + g * g - ((1 - g * g) / (1 - g + 2 * g * ξ)) *
            ((1 - g * g) / (1 - g + 2 * g * ξ))) / (2 * g)) := by
      unfold hg_ctheta
      rw [if_pos hg]
    have hform : (1 + g * g - ((1 - g * g) / (1 - g + 2 * g * ξ)) *
        ((1 - g * g) / (1 - g + 2 * g * ξ))) / (2 * g) =
        (1 / (2 * g)) * (1 + g ^ 2 - ((1 - g ^ 2) / (1 - g + 2 * g * ξ)) ^ 2) := by
      rw [div_eq_mul_inv, one_div, mul_comm]
      ring_nf
    rw [hexp, hform]
    set t2 := (1 / (2 * g)) *
      (1 + g ^ 2 - ((1 - g ^ 2) / (1 - g + 2 * g * ξ)) ^ 2) with ht2
    by_cases hgt : 1 < t2
    · rw [if_pos hgt, min_eq_left (le_of_lt hgt),
        max_eq_right (by norm_num : (-1 : ℝ) ≤ 1)]
    · rw [if_neg hgt]
      push_neg at hgt
      rw [min_eq_right hgt]
      by_cases hlt : t2 < -1
      · rw [if_pos hlt, max_eq_left (le_of_lt hlt)]
      · rw [if_neg hlt]
        push_neg at hlt
        rw [max_eq_right hlt]
  · have hle : EPS < 1 := by
      unfold EPS
      norm_num
    have hval : hg_ctheta g ξ = 2 * ξ - 1 := by
      unfold hg_ctheta
      rw [if_neg (by push_neg; exact hg)]
      exact Real.cos_arccos (by linarith) (by linarith)
    exact ⟨hval, by rw [hval]; constructor <;> linarith⟩
  · constructor
    · have hpi : (0 : ℝ) < 2 * Real.pi := by positivity
      unfold azimuthPhi
      positivity
    · unfold azimuthPhi
      have hpi : (0 : ℝ) < 2 * Real.pi := by positivity
      calc 2 * Real.pi * ξa < 2 * Real.pi * 1 := by
            apply mul_lt_mul_of_pos_left h1 hpi
        _ = 2 * Real.pi := by ring

theorem C3_mc_next_scatter_sampling_witness :
    (EPS < (1/2 : ℝ) →
      hg_ctheta (1/2) (1/2) = max (-1) (min 1
        ((1 / (2 * (1/2 : ℝ))) * (1 + (1/2 : ℝ) ^ 2 -
          ((1 - (1/2 : ℝ) ^ 2) / (1 - 1/2 + 2 * (1/2) * (1/2))) ^ 2))) ∧
      -1 ≤ hg_ctheta (1/2) (1/2) ∧ hg_ctheta (1/2) (1/2) ≤ 1) ∧
    ((1/2 : ℝ) ≤ EPS → 0 ≤ (1/2 : ℝ) → (1/2 : ℝ) ≤ 1 →
      hg_ctheta (1/2) (1/2) = 2 * (1/2) - 1 ∧
      -1 ≤ hg_ctheta (1/2) (1/2) ∧ hg_ctheta (1/2) (1/2) ≤ 1) ∧
    (0 ≤ (1/2 : ℝ) → (1/2 : ℝ) < 1 →
      0 ≤ azimuthPhi (1/2) ∧ azimuthPhi (1/2) < 2 * Real.pi) :=
  C3_mc_next_scatter_sampling (1/2) (1/2) (1/2)

theorem hg_pyth (g ξ : ℝ) :
    hg_stheta g ξ * hg_stheta g ξ + hg_ctheta g ξ * hg_ctheta g ξ = 1 := by
  unfold hg_stheta
  by_cases hg : EPS < g
  · rw [if_pos hg]
    obtain ⟨hlo, hhi⟩ := hg_ctheta_bounds g ξ hg
    have hnn : 0 ≤ 1 - hg_ctheta g ξ * hg_ctheta g ξ := by nlinarith
    rw [Real.mul_self_sqrt hnn]
    ring
  · rw [if_neg hg]
    unfold hg_ctheta
    rw [if_neg hg]
    have := Real.sin_sq_add_cos_sq (Real.arccos (2 * ξ - 1))
    nlinarith [this]

theorem scatter_general_norm (x y z s c sp cp r t : ℝ)
    (hdir : x * x + y * y + z * z = 1) (hth : s * s + c * c = 1)
    (hph : sp ^ 2 + cp ^ 2 = 1) (hr : r * r = 1 - z * z)
    (htr : t * r = s) :
    (t * (x * z * cp - y * sp) + x * c) *
        (t * (x * z * cp - y * sp) + x * c) +
      (t * (y * z * cp + x * sp) + y * c) *
        (t * (y * z * cp + x * sp) + y * c) +
      (-t * (1 - z * z) * cp + z * c) *
        (-t * (1 - z * z) * cp + z * c) = 1 := by
  linear_combination hth + (s * s) * hph +
    ((sp * sp + cp * cp) * (t * r + s)) * htr -
    ((sp * sp + cp * cp) * (t * t)) * hr +
    (t * t * (z * z * cp * cp + sp * sp) + 2 * t * c * z * cp + c * c) * hdir

/-- C10: `mc_next_scatter` preserves the unit length of the direction
vector — for every unit input direction and any values of the random
draws, the rotated direction (general branch or near-axis special case)
again has Euclidean norm 1 over exact real arithmetic. -/
theorem C10_mc_next_scatter_unit (g ξz ξa : ℝ) (dir : RVec3)
    (hdir : dir.x * dir.x + dir.y * dir.y + dir.z * dir.z = 1) :
    (mc_next_scatter_dir g ξz ξa dir).x * (mc_next_scatter_dir g ξz ξa dir).x +
      (mc_next_scatter_dir g ξz ξa dir).y * (mc_next_scatter_dir g ξz ξa dir).y +
      (mc_next_scatter_dir g ξz ξa dir).z * (mc_next_scatter_dir g ξz ξa dir).z
      = 1 := by
  have hth := hg_pyth g ξz
  have hph := Real.sin_sq_add_cos_sq (azimuthPhi ξa)
  unfold mc_next_scatter_dir scatterDir
  by_cases hz : -1 + EPS < dir.z ∧ dir.z < 1 - EPS
  · rw [if_pos hz]
    have heps : (0 : ℝ) < EPS := by
      unfold EPS
      norm_num
    have hz2 : dir.z * dir.z < 1 := by nlinarith [hz.1, hz.2]
    have ht0 : 0 < 1 - dir.z * dir.z := by linarith
    have hr : Real.sqrt (1 - dir.z * dir.z) * Real.sqrt (1 - dir.z * dir.z) =
        1 - dir.z * dir.z := Real.mul_self_sqrt (le_of_lt ht0)
    have hr0 : Real.sqrt (1 - dir.z * dir.z) ≠ 0 := by
      have := Real.sqrt_pos.mpr ht0
      linarith
    have htr : (hg_stheta g ξz * (1 / Real.sqrt (1 - dir.z * dir.z))) *
        Real.sqrt (1 - dir.z * dir.z) = hg_stheta g ξz := by
      field_simp
    exact scatter_general_norm dir.x dir.y dir.z (hg_stheta g ξz)
      (hg_ctheta g ξz) (Real.sin (azimuthPhi ξa)) (Real.cos (azimuthPhi ξa))
      (Real.sqrt (1 - dir.z * dir.z))
      (hg_stheta g ξz * (1 / Real.sqrt (1 - dir.z * dir.z)))
      hdir hth hph hr htr
  · rw [if_neg hz]
    by_cases hzp : 0 < dir.z
    · rw [if_pos hzp]
      show hg_stheta g ξz * Real.cos (azimuthPhi ξa) *
          (hg_stheta g ξz * Real.cos (azimuthPhi ξa)) +
        hg_stheta g ξz * Real.sin (azimuthPhi ξa) *
          (hg_stheta g ξz * Real.sin (azimuthPhi ξa)) +
        hg_ctheta g ξz * hg_ctheta g ξz = 1
      linear_combination hth + hg_stheta g ξz * hg_stheta g ξz * hph
    · rw [if_neg hzp]
      show hg_stheta g ξz * Real.cos (azimuthPhi ξa) *
          (hg_stheta g ξz * Real.cos (azimuthPhi ξa)) +
        hg_stheta g ξz * Real.sin (azimuthPhi ξa) *
          (hg_stheta g ξz * Real.sin (azimuthPhi ξa)) +
        -hg_ctheta g ξz * -hg_ctheta g ξz = 1
      linear_combination hth + hg_stheta g ξz * hg_stheta g ξz * hph

theorem C10_mc_next_scatter_unit_witness :
    (mc_next_scatter_dir 0 0 0 ⟨0, 0, 1⟩).x *
        (mc_next_scatter_dir 0 0 0 ⟨0, 0, 1⟩).x +
      (mc_next_scatter_dir 0 0 0 ⟨0, 0, 1⟩).y *
        (mc_next_scatter_dir 0 0 0 ⟨0, 0, 1⟩).y +
      (mc_next_scatter_dir 0 0 0 ⟨0, 0, 1⟩).z *
        (mc_next_scatter_dir 0 0 0 ⟨0, 0, 1⟩).z = 1 :=
  C10_mc_next_scatter_unit 0 0 0 ⟨0, 0, 1⟩ (by norm_num)

/-! ## Effective reflectance quadrature `mesh_getreff` (claim C5)

Lines 1879-1909: a 1000-step quadrature over the outgoing angle
`o = i·ostep`, `ostep = π/2000`, of the Fresnel reflection coefficient
split at the critical angle `oc = asin(1/n_in)` (total reflection,
`r_fres = 1`, beyond it), accumulating both the angular-flux weighting
`2 sin o cos o` and the angular-current weighting `3 sin o cos² o`, and
returning `(r_phi + r_j) / (2 - r_phi + r_j)`. -/

/-- The quadrature step `ostep = M_PI / (2.0 * count)` with
`count = 1000`. -/
noncomputable def ostep : ℝ := Real.pi / (2 * 1000)

/-- The Fresnel reflectance integrand of `mesh_getreff` (lines
1891-1900): below the critical angle, the average of the squared s- and
p-polarization amplitude ratios with `cosop = sqrt(1 - (n_in sin o)²)`;
above it, total internal reflection (`r_fres = 1`). -/
noncomputable def r_fres (n_in n_out oc o : ℝ) : ℝ :=
  if o < oc then
    let coso := Real.cos o
    let cosop := Real.sqrt (1 - (n_in * Real.sin o) * (n_in * Real.sin o))
    let tmp1 := (n_in * cosop - n_out * coso) / (n_in * cosop + n_out * coso)
    let tmp2 := (n_in * coso - n_out * cosop) / (n_in * coso + n_out * cosop)
    (1/2) * tmp1 * tmp1 + (1/2) * tmp2 * tmp2
  else 1

/-- The angular-flux accumulator `r_phi` after the final `*= ostep`
(lines 1902, 1906). -/
noncomputable def mesh_getreff_rphi (n_in n_out : ℝ) : ℝ :=
  (∑ i ∈ Finset.range 1000,
    2 * Real.sin (i * ostep) * Real.cos (i * ostep) *
      r_fres n_in n_out (Real.arcsin (1 / n_in)) (i * ostep)) * ostep

/-- The angular-current accumulator `r_j` after the final `*= ostep`
(lines 1903, 1907). -/
noncomputable def mesh_getreff_rj (n_in n_out : ℝ) : ℝ :=
  (∑ i ∈ Finset.range 1000,
    3 * Real.sin (i * ostep) * Real.cos (i * ostep) * Real.cos (i * ostep) *
      r_fres n_in n_out (Real.arcsin (1 / n_in)) (i * ostep)) * ostep

/-- `mesh_getreff` (line 1908): `(r_phi + r_j) / (2 - r_phi + r_j)`. -/
noncomputable def mesh_getreff (n_in n_out : ℝ) : ℝ :=
  (mesh_getreff_rphi n_in n_out + mesh_getreff_rj n_in n_out) /
    (2 - mesh_getreff_rphi n_in n_out + mesh_getreff_rj n_in n_out)

/-- One symmetric Fresnel amplitude term `0.5·((a-b)/(a+b))²`. -/
noncomputable def fresTerm (a b : ℝ) : ℝ :=
  (1/2) * ((a - b) / (a + b)) * ((a - b) / (a + b))

theorem r_fres_of_lt {n_in n_out oc o : ℝ} (h : o < oc) :
    r_fres n_in n_out oc o =
      fresTerm (n_in * Real.sqrt (1 - (n_in * Real.sin o) * (n_in * Real.sin o)))
          (n_out * Real.cos o) +
        fresTerm (n_in * Real.cos o)
          (n_out * Real.sqrt (1 - (n_in * Real.sin o) * (n_in * Real.sin o))) := by
  unfold r_fres fresTerm
  rw [if_pos h]

theorem r_fres_of_ge {n_in n_out oc o : ℝ} (h : ¬ o < oc) :
    r_fres n_in n_out oc o = 1 := by
  unfold r_fres
  rw [if_neg h]

theorem fresTerm_nonneg (a b : ℝ) : 0 ≤ fresTerm a b := by
  unfold fresTerm
  have := mul_self_nonneg ((a - b) / (a + b))
  nlinarith

theorem fresTerm_self (a : ℝ) : fresTerm a a = 0 := by
  unfold fresTerm
  simp

theorem fresTerm_le_half (a b : ℝ) (ha : 0 ≤ a) (hb : 0 ≤ b) :
    fresTerm a b ≤ 1/2 := by
  unfold fresTerm
  by_cases hab : a + b = 0
  · rw [hab, div_zero]
    norm_num
  · have hpos : 0 < a + b := lt_of_le_of_ne (by linarith) (Ne.symm hab)
    have hsq : ((a - b) / (a + b)) * ((a - b) / (a + b)) =
        ((a - b) * (a - b)) / ((a + b) * (a + b)) := by
      rw [div_mul_div_comm]
    have hle : ((a - b) * (a - b)) / ((a + b) * (a + b)) ≤ 1 := by
      rw [div_le_one (by positivity)]
      nlinarith [mul_nonneg ha hb]
    nlinarith [hle, hsq]

theorem r_fres_nonneg (n_in n_out oc o : ℝ) : 0 ≤ r_fres n_in n_out oc o := by
  by_cases h : o < oc
  · rw [r_fres_of_lt h]
    linarith [fresTerm_nonneg
        (n_in * Real.sqrt (1 - (n_in * Real.sin o) * (n_in * Real.sin o)))
        (n_out * Real.cos o),
      fresTerm_nonneg (n_in * Real.cos o)
        (n_out * Real.sqrt (1 - (n_in * Real.sin o) * (n_in * Real.sin o)))]
  · rw [r_fres_of_ge h]
    norm_num

theorem r_fres_le_one (n_in n_out oc o : ℝ) (hin : 0 ≤ n_in)
    (hout : 0 ≤ n_out) (hcos : 0 ≤ Real.cos o) :
    r_fres n_in n_out oc o ≤ 1 := by
  by_cases h : o < oc
  · rw [r_fres_of_lt h]
    have hsq : 0 ≤ Real.sqrt (1 - (n_in * Real.sin o) * (n_in * Real.sin o)) :=
      Real.sqrt_nonneg _
    have h1 := fresTerm_le_half
      (n_in * Real.sqrt (1 - (n_in * Real.sin o) * (n_in * Real.sin o)))
      (n_out * Real.cos o) (mul_nonneg hin hsq) (mul_nonneg hout hcos)
    have h2 := fresTerm_le_half (n_in * Real.cos o)
      (n_out * Real.sqrt (1 - (n_in * Real.sin o) * (n_in * Real.sin o)))
      (mul_nonneg hin hcos) (mul_nonneg hout hsq)
    linarith
  · rw [r_fres_of_ge h]

theorem ostep_pos : 0 < ostep := by
  unfold ostep
  positivity

theorem angle_nonneg (i : ℕ) : 0 ≤ (i : ℝ) * ostep :=
  mul_nonneg (Nat.cast_nonneg i) (le_of_lt ostep_pos)

theorem angle_lt_pi_div_two (i : ℕ) (hi : i < 1000) :
    (i : ℝ) * ostep < Real.pi / 2 := by
  have hle : (i : ℝ) ≤ 999 := by exact_mod_cast Nat.lt_succ_iff.mp hi
  have hpi := Real.pi_pos
  unfold ostep
  nlinarith

theorem sin_angle_nonneg (i : ℕ) (hi : i < 1000) :
    0 ≤ Real.sin ((i : ℝ) * ostep) :=
  Real.sin_nonneg_of_nonneg_of_le_pi (angle_nonneg i)
    (by linarith [angle_lt_pi_div_two i hi, Real.pi_pos])

theorem cos_angle_nonneg (i : ℕ) (hi : i < 1000) :
    0 ≤ Real.cos ((i : ℝ) * ostep) :=
  Real.cos_nonneg_of_mem_Icc ⟨by linarith [angle_nonneg i, Real.pi_pos],
    le_of_lt (angle_lt_pi_div_two i hi)⟩

theorem rphi_nonneg (n_in n_out : ℝ) : 0 ≤ mesh_getreff_rphi n_in n_out := by
  unfold mesh_getreff_rphi
  apply mul_nonneg _ (le_of_lt ostep_pos)
  apply Finset.sum_nonneg
  intro i hi
  have hilt := Finset.mem_range.mp hi
  have h1 := sin_angle_nonneg i hilt
  have h2 := cos_angle_nonneg i hilt
  have h3 := r_fres_nonneg n_in n_out (Real.arcsin (1 / n_in)) ((i : ℝ) * ostep)
  positivity

theorem rj_nonneg (n_in n_out : ℝ) : 0 ≤ mesh_getreff_rj n_in n_out := by
  unfold mesh_getreff_rj
  apply mul_nonneg _ (le_of_lt ostep_pos)
  apply Finset.sum_nonneg
  intro i hi
  have hilt := Finset.mem_range.mp hi
  have h1 := sin_angle_nonneg i hilt
  have h2 := cos_angle_nonneg i hilt
  have h3 := r_fres_nonneg n_in n_out (Real.arcsin (1 / n_in)) ((i : ℝ) * ostep)
  positivity

theorem mul_cos_le_sin (d : ℝ) (h0 : 0 ≤ d) (h1 : d ≤ Real.pi / 2) :
    d * Real.cos d ≤ Real.sin d := by
  rcases eq_or_lt_of_le h0 with heq | hlt
  · rw [← heq]
    simp
  · rcases eq_or_lt_of_le h1 with heq | hlt2
    · rw [heq, Real.cos_pi_div_two, Real.sin_pi_div_two]
      norm_num
    · have hc : 0 < Real.cos d :=
        Real.cos_pos_of_mem_Ioo ⟨by linarith [Real.pi_pos], hlt2⟩
      have ht := Real.lt_tan hlt hlt2
      rw [Real.tan_eq_sin_div_cos, lt_div_iff₀ hc] at ht
      linarith

theorem mul_cos_lt_sin (d : ℝ) (h0 : 0 < d) (h1 : d ≤ Real.pi / 2) :
    d * Real.cos d < Real.sin d := by
  rcases eq_or_lt_of_le h1 with heq | hlt2
  · rw [heq, Real.cos_pi_div_two, Real.sin_pi_div_two]
    norm_num
  · have hc : 0 < Real.cos d :=
      Real.cos_pos_of_mem_Ioo ⟨by linarith [Real.pi_pos], hlt2⟩
    have ht := Real.lt_tan h0 hlt2
    rw [Real.tan_eq_sin_div_cos, lt_div_iff₀ hc] at ht
    linarith

theorem real_sin_add_sin (a b : ℝ) :
    Real.sin a + Real.sin b =
      2 * Real.sin ((a + b) / 2) * Real.cos ((a - b) / 2) := by
  rw [show Real.sin a + Real.sin b = Real.sin a - Real.sin (-b) from by
    rw [Real.sin_neg]; ring]
  rw [Real.sin_sub_sin]
  simp only [sub_neg_eq_add, ← sub_eq_add_neg]

theorem chord_le (a b : ℝ) (h0 : 0 ≤ a) (hab : a ≤ b) (hb : b ≤ Real.pi) :
    ((b - a) / 2) * (Real.sin a + Real.sin b) ≤ Real.cos a - Real.cos b := by
  have hsum : Real.sin a + Real.sin b =
      2 * Real.sin ((a + b) / 2) * Real.cos ((a - b) / 2) := real_sin_add_sin a b
  have hdiff : Real.cos a - Real.cos b =
      -2 * Real.sin ((a + b) / 2) * Real.sin ((a - b) / 2) := Real.cos_sub_cos a b
  have hm0 : 0 ≤ (a + b) / 2 := by linarith
  have hmpi : (a + b) / 2 ≤ Real.pi := by linarith
  have hsm : 0 ≤ Real.sin ((a + b) / 2) :=
    Real.sin_nonneg_of_nonneg_of_le_pi hm0 hmpi
  have hd : (a - b) / 2 = -((b - a) / 2) := by ring
  have hcd : Real.cos ((a - b) / 2) = Real.cos ((b - a) / 2) := by
    rw [hd, Real.cos_neg]
  have hsd : Real.sin ((a - b) / 2) = -Real.sin ((b - a) / 2) := by
    rw [hd, Real.sin_neg]
  have haux := mul_cos_le_sin ((b - a) / 2) (by linarith) (by linarith)
  rw [hsum, hdiff, hcd, hsd]
  nlinarith [mul_nonneg hsm (sub_nonneg.mpr haux)]

theorem chord_lt (a b : ℝ) (h0 : 0 ≤ a) (hab : a < b) (hb : b ≤ Real.pi) :
    ((b - a) / 2) * (Real.sin a + Real.sin b) < Real.cos a - Real.cos b := by
  have hsum : Real.sin a + Real.sin b =
      2 * Real.sin ((a + b) / 2) * Real.cos ((a - b) / 2) := real_sin_add_sin a b
  have hdiff : Real.cos a - Real.cos b =
      -2 * Real.sin ((a + b) / 2) * Real.sin ((a - b) / 2) := Real.cos_sub_cos a b
  have hm0 : 0 < (a + b) / 2 := by linarith
  have hmpi : (a + b) / 2 < Real.pi := by linarith
  have hsm : 0 < Real.sin ((a + b) / 2) := Real.sin_pos_of_pos_of_lt_pi hm0 hmpi
  have hd : (a - b) / 2 = -((b - a) / 2) := by ring
  have hcd : Real.cos ((a - b) / 2) = Real.cos ((b - a) / 2) := by
    rw [hd, Real.cos_neg]
  have hsd : Real.sin ((a - b) / 2) = -Real.sin ((b - a) / 2) := by
    rw [hd, Real.sin_neg]
  have haux := mul_cos_lt_sin ((b - a) / 2) (by linarith) (by linarith)
  rw [hsum, hdiff, hcd, hsd]
  nlinarith [mul_pos hsm (sub_pos.mpr haux)]

theorem sin_riemann_lt_two (n : ℕ) (hn : 0 < n) :
    (∑ i ∈ Finset.range n, Real.sin ((i : ℝ) * (Real.pi / n))) *
      (Real.pi / n) < 2 := by
  set s : ℝ := Real.pi / n with hs
  have hnR : (0 : ℝ) < n := by exact_mod_cast hn
  have hspos : 0 < s := by
    rw [hs]
    positivity
  have hns : (n : ℝ) * s = Real.pi := by
    rw [hs]
    field_simp
  have hbound : ∀ i ∈ Finset.range n,
      (s / 2) * (Real.sin ((i : ℝ) * s) + Real.sin (((i : ℝ) + 1) * s)) ≤
        Real.cos ((i : ℝ) * s) - Real.cos (((i : ℝ) + 1) * s) := by
    intro i hi
    have hilt : i < n := Finset.mem_range.mp hi
    have hi1 : ((i : ℝ) + 1) ≤ n := by exact_mod_cast Nat.succ_le_of_lt hilt
    have hb : ((i : ℝ) + 1) * s ≤ Real.pi := by
      rw [← hns]
      apply mul_le_mul_of_nonneg_right hi1 (le_of_lt hspos)
    have ha : (0 : ℝ) ≤ (i : ℝ) * s :=
      mul_nonneg (Nat.cast_nonneg i) (le_of_lt hspos)
    have hab : (i : ℝ) * s ≤ ((i : ℝ) + 1) * s := by nlinarith
    have := chord_le ((i : ℝ) * s) (((i : ℝ) + 1) * s) ha hab hb
    have hd : (((i : ℝ) + 1) * s - (i : ℝ) * s) = s := by ring
    rw [hd] at this
    exact this
  have hstrict : ∃ i ∈ Finset.range n,
      (s / 2) * (Real.sin ((i : ℝ) * s) + Real.sin (((i : ℝ) + 1) * s)) <
        Real.cos ((i : ℝ) * s) - Real.cos (((i : ℝ) + 1) * s) := by
    refine ⟨0, Finset.mem_range.mpr hn, ?_⟩
    have h1n : (1 : ℝ) ≤ n := by exact_mod_cast hn
    have hb : ((0 : ℝ) + 1) * s ≤ Real.pi := by
      rw [← hns]
      nlinarith
    have := chord_lt ((0 : ℝ) * s) (((0 : ℝ) + 1) * s) (by simp)
      (by nlinarith) hb
    have hd : (((0 : ℝ) + 1) * s - (0 : ℝ) * s) = s := by ring
    rw [hd] at this
    exact_mod_cast this
  have hlt : (∑ i ∈ Finset.range n,
      (s / 2) * (Real.sin ((i : ℝ) * s) + Real.sin (((i : ℝ) + 1) * s))) <
      ∑ i ∈ Finset.range n,
        (Real.cos ((i : ℝ) * s) - Real.cos (((i : ℝ) + 1) * s)) := by
    obtain ⟨i0, hi0, hstr⟩ := hstrict
    exact Finset.sum_lt_sum hbound ⟨i0, hi0, hstr⟩
  have htel : (∑ i ∈ Finset.range n,
      (Real.cos ((i : ℝ) * s) - Real.cos (((i : ℝ) + 1) * s))) = 2 := by
    have := Finset.sum_range_sub' (fun i => Real.cos ((i : ℝ) * s)) n
    simp only [Nat.cast_zero, zero_mul, Real.cos_zero] at this
    have hcast : ∀ i : ℕ, ((i + 1 : ℕ) : ℝ) * s = ((i : ℝ) + 1) * s := by
      intro i
      push_cast
      ring
    calc (∑ i ∈ Finset.range n,
        (Real.cos ((i : ℝ) * s) - Real.cos (((i : ℝ) + 1) * s)))
        = ∑ i ∈ Finset.range n,
          ((fun k : ℕ => Real.cos ((k : ℝ) * s)) i -
            (fun k : ℕ => Real.cos ((k : ℝ) * s)) (i + 1)) := by
          apply Finset.sum_congr rfl
          intro i _
          simp only
          rw [hcast i]
      _ = Real.cos ((0 : ℕ) * s) - Real.cos ((n : ℝ) * s) := by
          rw [Finset.sum_range_sub' (fun k : ℕ => Real.cos ((k : ℝ) * s)) n]
      _ = 2 := by
          rw [hns]
          simp [Real.cos_pi]
          norm_num
  have hshift : (∑ i ∈ Finset.range n, Real.sin (((i : ℝ) + 1) * s)) =
      ∑ i ∈ Finset.range n, Real.sin ((i : ℝ) * s) := by
    have h1 : (∑ i ∈ Finset.range (n + 1), Real.sin ((i : ℝ) * s)) =
        (∑ i ∈ Finset.range n, Real.sin ((((i : ℕ) + 1 : ℕ) : ℝ) * s)) +
          Real.sin ((0 : ℕ) * s) :=
      Finset.sum_range_succ' (fun k : ℕ => Real.sin ((k : ℝ) * s)) n
    have h2 : (∑ i ∈ Finset.range (n + 1), Real.sin ((i : ℝ) * s)) =
        (∑ i ∈ Finset.range n, Real.sin ((i : ℝ) * s)) +
          Real.sin ((n : ℝ) * s) :=
      Finset.sum_range_succ (fun k : ℕ => Real.sin ((k : ℝ) * s)) n
    have h3 : Real.sin ((n : ℝ) * s) = 0 := by
      rw [hns, Real.sin_pi]
    have h4 : Real.sin (((0 : ℕ) : ℝ) * s) = 0 := by
      simp
    have h5 : (∑ i ∈ Finset.range n, Real.sin ((((i : ℕ) + 1 : ℕ) : ℝ) * s)) =
        ∑ i ∈ Finset.range n, Real.sin (((i : ℝ) + 1) * s) := by
      apply Finset.sum_congr rfl
      intro i _
      push_cast
      ring_nf
    rw [h5] at h1
    rw [h3] at h2
    rw [h4] at h1
    linarith [h1.symm.trans h2]
  have hexpand : (∑ i ∈ Finset.range n,
      (s / 2) * (Real.sin ((i : ℝ) * s) + Real.sin (((i : ℝ) + 1) * s))) =
      (∑ i ∈ Finset.range n, Real.sin ((i : ℝ) * s)) * s := by
    calc (∑ i ∈ Finset.range n,
        (s / 2) * (Real.sin ((i : ℝ) * s) + Real.sin (((i : ℝ) + 1) * s)))
        = (s / 2) * ∑ i ∈ Finset.range n,
            (Real.sin ((i : ℝ) * s) + Real.sin (((i : ℝ) + 1) * s)) :=
          (Finset.mul_sum _ _ _).symm
      _ = (s / 2) * ((∑ i ∈ Finset.range n, Real.sin ((i : ℝ) * s)) +
            ∑ i ∈ Finset.range n, Real.sin (((i : ℝ) + 1) * s)) := by
          rw [Finset.sum_add_distrib]
      _ = (∑ i ∈ Finset.range n, Real.sin ((i : ℝ) * s)) * s := by
          rw [hshift]
          ring
  rw [htel] at hlt
  rw [hexpand] at hlt
  exact hlt

theorem rphi_lt_one (n_in n_out : ℝ) (hin : 0 ≤ n_in) (hout : 0 ≤ n_out) :
    mesh_getreff_rphi n_in n_out < 1 := by
  unfold mesh_getreff_rphi
  have hterm : ∀ i ∈ Finset.range 1000,
      2 * Real.sin ((i : ℝ) * ostep) * Real.cos ((i : ℝ) * ostep) *
        r_fres n_in n_out (Real.arcsin (1 / n_in)) ((i : ℝ) * ostep) ≤
        Real.sin ((i : ℝ) * (Real.pi / 1000)) := by
    intro i hi
    have hilt := Finset.mem_range.mp hi
    have hsn := sin_angle_nonneg i hilt
    have hcn := cos_angle_nonneg i hilt
    have hf1 := r_fres_le_one n_in n_out (Real.arcsin (1 / n_in))
      ((i : ℝ) * ostep) hin hout hcn
    have hf0 := r_fres_nonneg n_in n_out (Real.arcsin (1 / n_in))
      ((i : ℝ) * ostep)
    have harg : 2 * ((i : ℝ) * ostep) = (i : ℝ) * (Real.pi / 1000) := by
      unfold ostep
      ring
    have h3 : Real.sin ((i : ℝ) * (Real.pi / 1000)) =
        2 * Real.sin ((i : ℝ) * ostep) * Real.cos ((i : ℝ) * ostep) := by
      rw [← harg, Real.sin_two_mul]
    have hmul : 2 * Real.sin ((i : ℝ) * ostep) * Real.cos ((i : ℝ) * ostep) *
        r_fres n_in n_out (Real.arcsin (1 / n_in)) ((i : ℝ) * ostep) ≤
        2 * Real.sin ((i : ℝ) * ostep) * Real.cos ((i : ℝ) * ostep) * 1 :=
      mul_le_mul_of_nonneg_left hf1 (by positivity)
    rw [mul_one] at hmul
    linarith
  have hsum := Finset.sum_le_sum hterm
  have hlt2 := sin_riemann_lt_two 1000 (by norm_num)
  have hcast : ((1000 : ℕ) : ℝ) = 1000 := by norm_num
  rw [hcast] at hlt2
  have hostep2 : ostep = (Real.pi / 1000) / 2 := by
    unfold ostep
    ring
  have hfin : (∑ i ∈ Finset.range 1000,
      2 * Real.sin ((i : ℝ) * ostep) * Real.cos ((i : ℝ) * ostep) *
        r_fres n_in n_out (Real.arcsin (1 / n_in)) ((i : ℝ) * ostep)) * ostep ≤
      (∑ i ∈ Finset.range 1000, Real.sin ((i : ℝ) * (Real.pi / 1000))) * ostep :=
    mul_le_mul_of_nonneg_right hsum (le_of_lt ostep_pos)
  have heq2 : (∑ i ∈ Finset.range 1000,
      Real.sin ((i : ℝ) * (Real.pi / 1000))) * ostep =
      ((∑ i ∈ Finset.range 1000, Real.sin ((i : ℝ) * (Real.pi / 1000))) *
        (Real.pi / 1000)) / 2 := by
    rw [hostep2]
    ring
  linarith

/-- C5 (amended): for every pair of refractive indices with
`n_in > n_out ≥ 1`, `mesh_getreff` — the 1000-step Fresnel quadrature
split at the critical angle — returns a value in `[0, 1)`; and at equal
unit indices `mesh_getreff(1,1)` is exactly 0.  (For equal indices
greater than 1 the quadrature is far from 0, see the counterexample.) -/
theorem C5_mesh_getreff_bounds (n_in n_out : ℝ) (h1 : 1 ≤ n_out)
    (h2 : n_out < n_in) :
    (0 ≤ mesh_getreff n_in n_out ∧ mesh_getreff n_in n_out < 1) ∧
    mesh_getreff 1 1 = 0 := by
  constructor
  · have hin : 0 ≤ n_in := by linarith
    have hout : 0 ≤ n_out := by linarith
    have hp0 := rphi_nonneg n_in n_out
    have hp1 := rphi_lt_one n_in n_out hin hout
    have hj0 := rj_nonneg n_in n_out
    have hD : 0 < 2 - mesh_getreff_rphi n_in n_out + mesh_getreff_rj n_in n_out := by
      linarith
    unfold mesh_getreff
    constructor
    · exact div_nonneg (by linarith) (le_of_lt hD)
    · rw [div_lt_one hD]
      linarith
  · have hfres : ∀ i ∈ Finset.range 1000,
        r_fres 1 1 (Real.arcsin (1 / 1)) ((i : ℝ) * ostep) = 0 := by
      intro i hi
      have hilt := Finset.mem_range.mp hi
      have harc : Real.arcsin ((1 : ℝ) / 1) = Real.pi / 2 := by
        norm_num [Real.arcsin_one]
      have hlt : (i : ℝ) * ostep < Real.arcsin ((1 : ℝ) / 1) := by
        rw [harc]
        exact angle_lt_pi_div_two i hilt
      rw [r_fres_of_lt hlt]
      have hcos := cos_angle_nonneg i hilt
      have hsq : Real.sqrt (1 - (1 * Real.sin ((i : ℝ) * ostep)) *
          (1 * Real.sin ((i : ℝ) * ostep))) = Real.cos ((i : ℝ) * ostep) := by
        have hid : 1 - (1 * Real.sin ((i : ℝ) * ostep)) *
            (1 * Real.sin ((i : ℝ) * ostep)) =
            Real.cos ((i : ℝ) * ostep) * Real.cos ((i : ℝ) * ostep) := by
          nlinarith [Real.sin_sq_add_cos_sq ((i : ℝ) * ostep)]
        rw [hid, Real.sqrt_mul_self hcos]
      rw [hsq]
      simp [fresTerm_self]
    have hphi : mesh_getreff_rphi 1 1 = 0 := by
      unfold mesh_getreff_rphi
      rw [Finset.sum_eq_zero, zero_mul]
      intro i hi
      rw [hfres i hi, mul_zero]
    have hj : mesh_getreff_rj 1 1 = 0 := by
      unfold mesh_getreff_rj
      rw [Finset.sum_eq_zero, zero_mul]
      intro i hi
      rw [hfres i hi, mul_zero]
    unfold mesh_getreff
    rw [hphi, hj]
    norm_num

theorem C5_mesh_getreff_bounds_witness :
    (0 ≤ mesh_getreff 2 1 ∧ mesh_getreff 2 1 < 1) ∧ mesh_getreff 1 1 = 0 :=
  C5_mesh_getreff_bounds 2 1 (by norm_num) (by norm_num)

theorem arcsin_half : Real.arcsin (1 / 2) = Real.pi / 6 := by
  rw [show (1 / 2 : ℝ) = Real.sin (Real.pi / 6) from Real.sin_pi_div_six.symm]
  exact Real.arcsin_sin (by linarith [Real.pi_pos]) (by linarith [Real.pi_pos])

theorem cos_diff_le_right (a b : ℝ) (h0 : 0 ≤ a) (hab : a ≤ b)
    (hb : b ≤ Real.pi / 2) :
    Real.cos a - Real.cos b ≤ (b - a) * Real.sin b := by
  rw [Real.cos_sub_cos]
  have hd : (a - b) / 2 = -((b - a) / 2) := by ring
  rw [hd, Real.sin_neg]
  have hpi := Real.pi_pos
  have hm0 : 0 ≤ (a + b) / 2 := by linarith
  have hmpi : (a + b) / 2 ≤ Real.pi := by linarith
  have hm_nn : 0 ≤ Real.sin ((a + b) / 2) :=
    Real.sin_nonneg_of_nonneg_of_le_pi hm0 hmpi
  have hmb : Real.sin ((a + b) / 2) ≤ Real.sin b :=
    Real.sin_le_sin_of_le_of_le_pi_div_two (by linarith) hb (by linarith)
  have hd0 : 0 ≤ (b - a) / 2 := by linarith
  have hsd : Real.sin ((b - a) / 2) ≤ (b - a) / 2 := Real.sin_le hd0
  have hsd0 : 0 ≤ Real.sin ((b - a) / 2) :=
    Real.sin_nonneg_of_nonneg_of_le_pi hd0 (by linarith)
  have hsb0 : 0 ≤ Real.sin b :=
    Real.sin_nonneg_of_nonneg_of_le_pi (by linarith) (by linarith)
  nlinarith [mul_le_mul hmb hsd hsd0 hsb0]

theorem cos_diff_le_left (a b : ℝ) (h0 : Real.pi / 2 ≤ a) (hab : a ≤ b)
    (hb : b ≤ Real.pi) :
    Real.cos a - Real.cos b ≤ (b - a) * Real.sin a := by
  rw [Real.cos_sub_cos]
  have hd : (a - b) / 2 = -((b - a) / 2) := by ring
  rw [hd, Real.sin_neg]
  have hpi := Real.pi_pos
  have hm0 : 0 ≤ (a + b) / 2 := by linarith
  have hmpi : (a + b) / 2 ≤ Real.pi := by linarith
  have hm_nn : 0 ≤ Real.sin ((a + b) / 2) :=
    Real.sin_nonneg_of_nonneg_of_le_pi hm0 hmpi
  have hma : Real.sin ((a + b) / 2) ≤ Real.sin a := by
    have h1 : Real.sin ((a + b) / 2) = Real.sin (Real.pi - (a + b) / 2) :=
      (Real.sin_pi_sub _).symm
    have h2 : Real.sin a = Real.sin (Real.pi - a) := (Real.sin_pi_sub a).symm
    rw [h1, h2]
    exact Real.sin_le_sin_of_le_of_le_pi_div_two (by linarith)
      (by linarith) (by linarith)
  have hd0 : 0 ≤ (b - a) / 2 := by linarith
  have hsd : Real.sin ((b - a) / 2) ≤ (b - a) / 2 := Real.sin_le hd0
  have hsd0 : 0 ≤ Real.sin ((b - a) / 2) :=
    Real.sin_nonneg_of_nonneg_of_le_pi hd0 (by linarith)
  have hsa0 : 0 ≤ Real.sin a :=
    Real.sin_nonneg_of_nonneg_of_le_pi (by linarith) (by linarith)
  nlinarith [mul_le_mul hma hsd hsd0 hsa0]

theorem fres_2_2_one (i : ℕ) (h334 : 334 ≤ i) :
    r_fres 2 2 (Real.arcsin (1 / 2)) ((i : ℝ) * ostep) = 1 := by
  apply r_fres_of_ge
  rw [arcsin_half]
  push_neg
  have hc : (334 : ℝ) ≤ (i : ℝ) := by exact_mod_cast h334
  unfold ostep
  nlinarith [Real.pi_pos]

theorem fres_2_2_sum_part (lo hi : ℕ) (hlo : 334 ≤ lo) :
    ∀ i ∈ Finset.Ico lo hi,
      2 * Real.sin ((i : ℝ) * ostep) * Real.cos ((i : ℝ) * ostep) *
        r_fres 2 2 (Real.arcsin (1 / 2)) ((i : ℝ) * ostep) =
      Real.sin ((i : ℝ) * (Real.pi / 1000)) := by
  intro i hi
  obtain ⟨h1, h2⟩ := Finset.mem_Ico.mp hi
  rw [fres_2_2_one i (le_trans hlo h1), mul_one]
  have harg : 2 * ((i : ℝ) * ostep) = (i : ℝ) * (Real.pi / 1000) := by
    unfold ostep
    ring
  rw [← harg, Real.sin_two_mul]

/-- C5 counterexample: at equal refractive indices `n_in = n_out = 2` the
quadrature's result is at least 1/2, not approximately 0: `r_fres` compares
the angle against `oc = asin(1/n_in)` and uses `sqrt(1 - (n_in sin o)^2)`,
both of which presuppose an outside index of 1, so for `o ≥ asin(1/2)`
every term contributes full reflectance 1 and the flux integral alone
exceeds 2/3. -/
theorem C5_reff_equal_counterexample : 1 / 2 ≤ mesh_getreff 2 2 := by
  have hpi := Real.pi_pos
  have hple4 := Real.pi_le_four
  set s : ℝ := Real.pi / 1000 with hs
  have hsp : 0 < s := by rw [hs]; positivity
  have hos : ostep = s / 2 := by
    rw [hs]
    unfold ostep
    ring
  -- the three numeric cosine values
  have hc333 : 1 / 2 ≤ Real.cos ((333 : ℝ) * s) := by
    have hle : (333 : ℝ) * s ≤ Real.pi / 3 := by
      rw [hs]
      nlinarith
    have h0 : 0 ≤ (333 : ℝ) * s := by positivity
    have := Real.cos_le_cos_of_nonneg_of_le_pi h0 (by linarith) hle
    rw [Real.cos_pi_div_three] at this
    linarith
  have hc500 : Real.cos ((500 : ℝ) * s) = 0 := by
    rw [show (500 : ℝ) * s = Real.pi / 2 from by rw [hs]; ring,
      Real.cos_pi_div_two]
  have hc501 : -(1 / 6 : ℝ) ≤ Real.cos ((501 : ℝ) * s) := by
    have h1 : (501 : ℝ) * s = Real.pi / 2 + Real.pi / 1000 := by
      rw [hs]
      ring
    have h2 : Real.cos (Real.pi / 2 + Real.pi / 1000) =
        -Real.sin (Real.pi / 1000) := by
      rw [Real.cos_add, Real.cos_pi_div_two, Real.sin_pi_div_two]
      ring
    have h3 : Real.sin (Real.pi / 1000) ≤ Real.pi / 1000 :=
      Real.sin_le (by positivity)
    rw [h1, h2]
    nlinarith
  have hc1000 : Real.cos ((1000 : ℝ) * s) = -1 := by
    rw [show (1000 : ℝ) * s = Real.pi from by rw [hs]; ring, Real.cos_pi]
  -- split the quadrature sum
  set F : ℕ → ℝ := fun i =>
    2 * Real.sin ((i : ℝ) * ostep) * Real.cos ((i : ℝ) * ostep) *
      r_fres 2 2 (Real.arcsin (1 / 2)) ((i : ℝ) * ostep) with hF
  have hFnn : ∀ i ∈ Finset.Ico 0 334, 0 ≤ F i := by
    intro i hi
    have hilt : i < 1000 := by
      have := (Finset.mem_Ico.mp hi).2
      omega
    rw [hF]
    have h1 := sin_angle_nonneg i hilt
    have h2 := cos_angle_nonneg i hilt
    have h3 := r_fres_nonneg 2 2 (Real.arcsin (1 / 2)) ((i : ℝ) * ostep)
    positivity
  have hsplit : (∑ i ∈ Finset.range 1000, F i) =
      (∑ i ∈ Finset.Ico 0 334, F i) + (∑ i ∈ Finset.Ico 334 501, F i) +
        (∑ i ∈ Finset.Ico 501 1000, F i) := by
    rw [Finset.range_eq_Ico,
      ← Finset.sum_Ico_consecutive F (by omega : 0 ≤ 334)
        (by omega : 334 ≤ 1000),
      ← Finset.sum_Ico_consecutive F (by omega : 334 ≤ 501)
        (by omega : 501 ≤ 1000)]
    ring
  -- middle part: increasing side of sine
  have hmid : Real.cos ((333 : ℝ) * s) - Real.cos ((500 : ℝ) * s) ≤
      s * ∑ i ∈ Finset.Ico 334 501, F i := by
    have htermeq := fres_2_2_sum_part 334 501 (le_refl _)
    have hterm : ∀ i : ℕ, i ∈ Finset.Ico 334 501 →
        Real.cos (((i : ℝ) - 1) * s) - Real.cos ((i : ℝ) * s) ≤ s * F i := by
      intro i hi
      obtain ⟨h1, h2⟩ := Finset.mem_Ico.mp hi
      have hiR : (334 : ℝ) ≤ (i : ℝ) := by exact_mod_cast h1
      have hiR2 : (i : ℝ) ≤ 500 := by
        have : i ≤ 500 := by omega
        exact_mod_cast this
      have hchord := cos_diff_le_right (((i : ℝ) - 1) * s) ((i : ℝ) * s)
        (by nlinarith) (by nlinarith)
        (by rw [hs]; nlinarith)
      have hd : ((i : ℝ) * s - ((i : ℝ) - 1) * s) = s := by ring
      rw [hd] at hchord
      have hFeq : F i = Real.sin ((i : ℝ) * (Real.pi / 1000)) := by
        rw [hF]
        exact htermeq i hi
      rw [hFeq, ← hs]
      linarith
    have hsum1 : (∑ i ∈ Finset.Ico (334 : ℕ) 501,
        (Real.cos (((i : ℝ) - 1) * s) - Real.cos ((i : ℝ) * s))) ≤
        ∑ i ∈ Finset.Ico (334 : ℕ) 501, s * F i := Finset.sum_le_sum hterm
    have htel : (∑ i ∈ Finset.Ico (334 : ℕ) 501,
        (Real.cos (((i : ℝ) - 1) * s) - Real.cos ((i : ℝ) * s))) =
        Real.cos ((333 : ℝ) * s) - Real.cos ((500 : ℝ) * s) := by
      rw [Finset.sum_Ico_eq_sum_range]
      have hstep : ∀ k ∈ Finset.range (501 - 334),
          (Real.cos ((((334 + k : ℕ) : ℝ) - 1) * s) -
            Real.cos (((334 + k : ℕ) : ℝ) * s)) =
          ((fun j : ℕ => Real.cos (((333 + j : ℕ) : ℝ) * s)) k -
            (fun j : ℕ => Real.cos (((333 + j : ℕ) : ℝ) * s)) (k + 1)) := by
        intro k _
        simp only
        have e1 : (((334 + k : ℕ) : ℝ) - 1) = ((333 + k : ℕ) : ℝ) := by
          push_cast
          ring
        have e2 : ((334 + k : ℕ) : ℝ) = ((333 + (k + 1) : ℕ) : ℝ) := by
          push_cast
          ring
        rw [e1, e2]
      rw [Finset.sum_congr rfl hstep, Finset.sum_range_sub'
        (fun j : ℕ => Real.cos (((333 + j : ℕ) : ℝ) * s))]
      have e3 : ((333 + 0 : ℕ) : ℝ) = (333 : ℝ) := by norm_num
      have e4 : ((333 + (501 - 334) : ℕ) : ℝ) = (500 : ℝ) := by norm_num
      rw [e3, e4]
    have hmul2 : (∑ i ∈ Finset.Ico (334 : ℕ) 501, s * F i) =
        s * ∑ i ∈ Finset.Ico (334 : ℕ) 501, F i := by rw [Finset.mul_sum]
    rw [htel] at hsum1
    rw [hmul2] at hsum1
    exact hsum1
  -- upper part: decreasing side of sine
  have hupp : Real.cos ((501 : ℝ) * s) - Real.cos ((1000 : ℝ) * s) ≤
      s * ∑ i ∈ Finset.Ico 501 1000, F i := by
    have htermeq := fres_2_2_sum_part 501 1000 (by omega)
    have hterm : ∀ i : ℕ, i ∈ Finset.Ico 501 1000 →
        Real.cos ((i : ℝ) * s) - Real.cos (((i : ℝ) + 1) * s) ≤ s * F i := by
      intro i hi
      obtain ⟨h1, h2⟩ := Finset.mem_Ico.mp hi
      have hiR : (501 : ℝ) ≤ (i : ℝ) := by exact_mod_cast h1
      have hiR2 : (i : ℝ) + 1 ≤ 1000 := by
        have : i + 1 ≤ 1000 := by omega
        exact_mod_cast this
      have hchord := cos_diff_le_left ((i : ℝ) * s) (((i : ℝ) + 1) * s)
        (by rw [hs]; nlinarith) (by nlinarith)
        (by rw [hs]; nlinarith)
      have hd : (((i : ℝ) + 1) * s - (i : ℝ) * s) = s := by ring
      rw [hd] at hchord
      have hFeq : F i = Real.sin ((i : ℝ) * (Real.pi / 1000)) := by
        rw [hF]
        exact htermeq i hi
      rw [hFeq, ← hs]
      linarith
    have hsum1 : (∑ i ∈ Finset.Ico (501 : ℕ) 1000,
        (Real.cos ((i : ℝ) * s) - Real.cos (((i : ℝ) + 1) * s))) ≤
        ∑ i ∈ Finset.Ico (501 : ℕ) 1000, s * F i := Finset.sum_le_sum hterm
    have htel : (∑ i ∈ Finset.Ico (501 : ℕ) 1000,
        (Real.cos ((i : ℝ) * s) - Real.cos (((i : ℝ) + 1) * s))) =
        Real.cos ((501 : ℝ) * s) - Real.cos ((1000 : ℝ) * s) := by
      rw [Finset.sum_Ico_eq_sum_range]
      have hstep : ∀ k ∈ Finset.range (1000 - 501),
          (Real.cos (((501 + k : ℕ) : ℝ) * s) -
            Real.cos ((((501 + k : ℕ) : ℝ) + 1) * s)) =
          ((fun j : ℕ => Real.cos (((501 + j : ℕ) : ℝ) * s)) k -
            (fun j : ℕ => Real.cos (((501 + j : ℕ) : ℝ) * s)) (k + 1)) := by
        intro k _
        simp only
        have e2 : (((501 + k : ℕ) : ℝ) + 1) = ((501 + (k + 1) : ℕ) : ℝ) := by
          push_cast
          ring
        rw [e2]
      rw [Finset.sum_congr rfl hstep, Finset.sum_range_sub'
        (fun j : ℕ => Real.cos (((501 + j : ℕ) : ℝ) * s))]
      have e3 : ((501 + 0 : ℕ) : ℝ) = (501 : ℝ) := by norm_num
      have e4 : ((501 + (1000 - 501) : ℕ) : ℝ) = (1000 : ℝ) := by norm_num
      rw [e3, e4]
    have hmul2 : (∑ i ∈ Finset.Ico (501 : ℕ) 1000, s * F i) =
        s * ∑ i ∈ Finset.Ico (501 : ℕ) 1000, F i := by rw [Finset.mul_sum]
    rw [htel] at hsum1
    rw [hmul2] at hsum1
    exact hsum1
  -- combine: the full sum times s is at least 4/3
  have hsum43 : 4 / 3 ≤ s * ∑ i ∈ Finset.range 1000, F i := by
    have h0 : 0 ≤ ∑ i ∈ Finset.Ico 0 334, F i := Finset.sum_nonneg hFnn
    rw [hsplit]
    have hnum : Real.pi / 1000 ≤ 1 / 6 := by nlinarith
    nlinarith [hmid, hupp, hc333, hc500, hc501, hc1000,
      mul_nonneg (le_of_lt hsp) h0]
  -- hence r_phi(2,2) ≥ 2/3
  have hphi23 : 2 / 3 ≤ mesh_getreff_rphi 2 2 := by
    have hval : mesh_getreff_rphi 2 2 =
        (∑ i ∈ Finset.range 1000, F i) * ostep := by
      rw [hF]
      rfl
    rw [hval, hos]
    have heq : (∑ i ∈ Finset.range 1000, F i) * (s / 2) =
        (s * ∑ i ∈ Finset.range 1000, F i) / 2 := by ring
    rw [heq]
    linarith
  have hphi1 : mesh_getreff_rphi 2 2 < 1 :=
    rphi_lt_one 2 2 (by norm_num) (by norm_num)
  have hj0 : 0 ≤ mesh_getreff_rj 2 2 := rj_nonneg 2 2
  have hD : 0 < 2 - mesh_getreff_rphi 2 2 + mesh_getreff_rj 2 2 := by linarith
  unfold mesh_getreff
  rw [le_div_iff₀ hD]
  linarith

end MMC
